import Mathlib

/-!
Verification of the droneforge voxel-world core (palette-compressed chunk
storage, deterministic world generation, world-coordinate decomposition,
supercover line collision, and the streaming population scheduler).

The definitions below are a shallow embedding of the Rust sources in
droneforge-core (block.rs, chunk.rs, chunk_cache.rs, worldgen.rs, linecast.rs)
and droneforge-web (lib.rs).  Machine integers are modelled as Nat / Int with
explicit `% 2 ^ 64` where u64 arithmetic wraps; Rust `Vec` becomes `List`;
`HashMap` becomes a function into `Option`; fallible code returns `Except`.
-/

/-! ## block.rs -/

/-- Block ids are u16 in the source; all ids used by the program are tiny, so
they are modelled as Nat. -/
abbrev BlockId := Nat

def AIR : BlockId := 0

def DIRT : BlockId := 1

def STONE : BlockId := 2

def IRON : BlockId := 3

def BEDROCK : BlockId := 4

/-! ## coordinates.rs -/

structure ChunkPosition where
  x : Int
  y : Int
  z : Int
deriving DecidableEq, Repr

structure LocalBlockCoord where
  x : Nat
  y : Nat
  z : Nat
deriving DecidableEq, Repr

structure WorldCoord where
  x : Int
  y : Int
  z : Int
deriving DecidableEq, Repr

/-! ## chunk.rs -/

def CHUNK_WIDTH : Nat := 32

def CHUNK_DEPTH : Nat := 32

def CHUNK_HEIGHT : Nat := 4

def CHUNK_BLOCKS : Nat := CHUNK_WIDTH * CHUNK_DEPTH * CHUNK_HEIGHT

structure Chunk where
  position : ChunkPosition
  blocks : List BlockId
deriving DecidableEq, Repr

inductive ChunkError where
  | InvalidBlockCount (n : Nat)
  | OutOfBounds
deriving DecidableEq, Repr

def Chunk.block_index (coord : LocalBlockCoord) : Except ChunkError Nat :=
  if CHUNK_WIDTH ≤ coord.x ∨ CHUNK_DEPTH ≤ coord.y ∨ CHUNK_HEIGHT ≤ coord.z then
    .error .OutOfBounds
  else
    .ok (coord.x + coord.y * CHUNK_WIDTH + coord.z * (CHUNK_WIDTH * CHUNK_DEPTH))

def Chunk.new (position : ChunkPosition) (default_block : BlockId) : Chunk :=
  { position := position, blocks := List.replicate CHUNK_BLOCKS default_block }

def Chunk.get_block (c : Chunk) (coord : LocalBlockCoord) : Except ChunkError BlockId :=
  match Chunk.block_index coord with
  | .error e => .error e
  | .ok index => .ok (c.blocks.getD index 0)

def Chunk.set_block (c : Chunk) (coord : LocalBlockCoord) (block : BlockId) :
    Except ChunkError Chunk :=
  match Chunk.block_index coord with
  | .error e => .error e
  | .ok index => .ok { c with blocks := c.blocks.set index block }

/-! ## chunk_cache.rs: palette compression -/

/-- Number of bits per packed palette index.  The source computes
`usize::BITS - (palette_len.saturating_sub 1).leading_zeros()` for
`palette_len > 1`, which is the bit length of `palette_len - 1`;
`Nat.size` is exactly that bit length (valid since the palette length
is far below 2 ^ 64). -/
def bits_required (palette_len : Nat) : Nat :=
  if palette_len ≤ 1 then 0 else Nat.size (palette_len - 1)

/-- First-seen-order list of the distinct block ids (the palette).  The
source also builds a HashMap from block id to palette index alongside; that
map sends each block to its position in the final palette, which is
`List.indexOf` below (the palette only ever grows by appending). -/
def build_palette (blocks : List BlockId) : List BlockId :=
  blocks.foldl (fun palette block =>
    if palette.contains block then palette else palette ++ [block]) []

/-- Write one palette index into the packed word array, mirroring one
iteration of the packing loop: an OR of the (wrapped) shifted value into the
word at the index's bit offset, plus the spill into the following word when
the value straddles a 64-bit boundary. -/
def write_index (packed : List Nat) (i : Nat) (palette_index : Nat)
    (bits_per_index : Nat) : List Nat :=
  let offset := i * bits_per_index
  let word_index := offset / 64
  let bit_in_word := offset % 64
  let mask := (1 <<< bits_per_index) - 1
  let value := palette_index &&& mask
  let packed := packed.set word_index
    (packed.getD word_index 0 ||| ((value <<< bit_in_word) % 2 ^ 64))
  let bits_written := bit_in_word + bits_per_index
  if 64 < bits_written then
    let spill_bits := bits_written - 64
    packed.set (word_index + 1)
      (packed.getD (word_index + 1) 0 ||| (value >>> (bits_per_index - spill_bits)))
  else
    packed

def pack_blocks (blocks : List BlockId) (palette_index_of : BlockId → Nat)
    (bits_per_index : Nat) : List Nat :=
  if bits_per_index = 0 then []
  else
    let total_bits := blocks.length * bits_per_index
    let u64_len := (total_bits + 63) / 64
    (List.range blocks.length).foldl
      (fun packed i => write_index packed i (palette_index_of (blocks.getD i 0)) bits_per_index)
      (List.replicate u64_len 0)

def unpack_index (packed : List Nat) (block_index : Nat) (bits_per_index : Nat) : Nat :=
  let offset := block_index * bits_per_index
  let word_index := offset / 64
  let bit_in_word := offset % 64
  let mask := (1 <<< bits_per_index) - 1
  let value := (packed.getD word_index 0 >>> bit_in_word) &&& mask
  let bits_read := bit_in_word + bits_per_index
  if 64 < bits_read then
    let spill_bits := bits_read - 64
    let spill_mask := (1 <<< spill_bits) - 1
    let spill := packed.getD (word_index + 1) 0 &&& spill_mask
    value ||| (spill <<< (bits_per_index - spill_bits))
  else
    value

structure CachedChunk where
  position : ChunkPosition
  palette : List BlockId
  blocks : List Nat
  bits_per_index : Nat
  changed : Bool
deriving Repr

def CachedChunk.from_chunk_with_changed (chunk : Chunk) (changed : Bool) : CachedChunk :=
  let palette := build_palette chunk.blocks
  let bits_per_index := bits_required palette.length
  { position := chunk.position
    palette := palette
    blocks := pack_blocks chunk.blocks (fun b => palette.indexOf b) bits_per_index
    bits_per_index := bits_per_index
    changed := changed }

def CachedChunk.from_chunk (chunk : Chunk) : CachedChunk :=
  CachedChunk.from_chunk_with_changed chunk false

def CachedChunk.get_block (c : CachedChunk) (coord : LocalBlockCoord) :
    Except ChunkError BlockId :=
  if c.palette.isEmpty then .error (.InvalidBlockCount 0)
  else
    match Chunk.block_index coord with
    | .error e => .error e
    | .ok index =>
      if c.bits_per_index = 0 then .ok (c.palette.getD 0 0)
      else
        let palette_index := unpack_index c.blocks index c.bits_per_index
        match c.palette.get? palette_index with
        | some b => .ok b
        | none => .error (.InvalidBlockCount palette_index)

/-! ## Bit-level correctness of the packed representation

A packed word list (little-endian base 2 ^ 64) and a packed value list
(little-endian base 2 ^ b) are both read through the same positional
interpretation `packedNat`. -/

def packedNat (b : Nat) : List Nat → Nat
  | [] => 0
  | v :: vs => v + 2 ^ b * packedNat b vs

theorem packedNat_lt (b : Nat) (vs : List Nat) (hall : ∀ v ∈ vs, v < 2 ^ b) :
    packedNat b vs < 2 ^ (b * vs.length) := by
  induction vs with
  | nil => simp [packedNat]
  | cons v vs ih =>
    have hv : v < 2 ^ b := hall v (List.mem_cons_self _ _)
    have ht : packedNat b vs < 2 ^ (b * vs.length) :=
      ih (fun x hx => hall x (List.mem_cons_of_mem _ hx))
    have h1 : v + 2 ^ b * packedNat b vs < 2 ^ b * (packedNat b vs + 1) := by
      nlinarith
    have h2 : 2 ^ b * (packedNat b vs + 1) ≤ 2 ^ b * 2 ^ (b * vs.length) :=
      Nat.mul_le_mul_left _ ht
    have h3 : (2 : Nat) ^ b * 2 ^ (b * vs.length) = 2 ^ (b * (vs.length + 1)) := by
      rw [← pow_add]; ring_nf
    calc packedNat b (v :: vs) < 2 ^ b * (packedNat b vs + 1) := h1
      _ ≤ 2 ^ b * 2 ^ (b * vs.length) := h2
      _ = 2 ^ (b * (vs.length + 1)) := h3
      _ = 2 ^ (b * (v :: vs).length) := by simp

theorem packedNat_getD (b : Nat) (vs : List Nat) (hall : ∀ v ∈ vs, v < 2 ^ b)
    (j : Nat) : vs.getD j 0 = packedNat b vs / 2 ^ (b * j) % 2 ^ b := by
  induction vs generalizing j with
  | nil =>
    simp [packedNat, Nat.zero_div, Nat.zero_mod]
  | cons v vs ih =>
    have hv : v < 2 ^ b := hall v (List.mem_cons_self _ _)
    have hall' : ∀ x ∈ vs, x < 2 ^ b := fun x hx => hall x (List.mem_cons_of_mem _ hx)
    cases j with
    | zero =>
      simp only [List.getD, packedNat, Nat.mul_zero, pow_zero, Nat.div_one]
      rw [Nat.add_mul_mod_self_left, Nat.mod_eq_of_lt hv]
      rfl
    | succ j =>
      have hdiv : (v + 2 ^ b * packedNat b vs) / 2 ^ (b * (j + 1))
          = packedNat b vs / 2 ^ (b * j) := by
        have hsplit : (2 : Nat) ^ (b * (j + 1)) = 2 ^ b * 2 ^ (b * j) := by
          rw [← pow_add]; ring_nf
        rw [hsplit, ← Nat.div_div_eq_div_mul,
          Nat.add_mul_div_left _ _ (Nat.pos_pow_of_pos b (by norm_num)),
          Nat.div_eq_of_lt hv, Nat.zero_add]
      show vs.getD j 0 = _
      rw [ih hall' j, packedNat, hdiv]

theorem packedNat_set (b : Nat) (vs : List Nat) (j : Nat) (hj : j < vs.length)
    (x : Nat) :
    packedNat b (vs.set j x) + vs.getD j 0 * 2 ^ (b * j)
      = packedNat b vs + x * 2 ^ (b * j) := by
  induction vs generalizing j with
  | nil => simp at hj
  | cons v vs ih =>
    cases j with
    | zero =>
      simp only [List.set, packedNat, List.getD, Nat.mul_zero, pow_zero,
        Nat.mul_one]
      show x + 2 ^ b * packedNat b vs + v = v + 2 ^ b * packedNat b vs + x
      ring
    | succ j =>
      have hj' : j < vs.length := by simpa using hj
      have hrec := ih j hj'
      simp only [List.set, packedNat, List.getD_cons_succ]
      have hsplit : (2 : Nat) ^ (b * (j + 1)) = 2 ^ b * 2 ^ (b * j) := by
        rw [← pow_add]; ring_nf
      rw [hsplit]
      have h2 := congrArg (fun t => v + 2 ^ b * t) hrec
      simp only [Nat.mul_add] at h2
      ring_nf at h2 ⊢
      linarith [h2]

theorem packedNat_append_single (b : Nat) (vs : List Nat) (x : Nat) :
    packedNat b (vs ++ [x]) = packedNat b vs + x * 2 ^ (b * vs.length) := by
  induction vs with
  | nil => simp [packedNat]
  | cons v vs ih =>
    show v + 2 ^ b * packedNat b (vs ++ [x]) = v + 2 ^ b * packedNat b vs + _
    have hsplit : (2 : Nat) ^ (b * (vs.length + 1)) = 2 ^ b * 2 ^ (b * vs.length) := by
      rw [← pow_add]; ring_nf
    rw [ih, List.length_cons, hsplit]; ring

theorem packedNat_replicate_zero (b n : Nat) :
    packedNat b (List.replicate n 0) = 0 := by
  induction n with
  | zero => rfl
  | succ n ih => simp [List.replicate, packedNat, ih]

theorem mem_set_lt {vs : List Nat} {m : Nat} (h : ∀ w ∈ vs, w < m) {j x : Nat}
    (hx : x < m) : ∀ w ∈ vs.set j x, w < m := by
  intro w hw
  rcases List.mem_or_eq_of_mem_set hw with hmem | rfl
  · exact h w hmem
  · exact hx

theorem lor_two_pow_mul_eq_add (a b k : Nat) (h : a < 2 ^ k) :
    a ||| b * 2 ^ k = a + b * 2 ^ k := by
  apply Nat.eq_of_testBit_eq
  intro i
  rw [Nat.testBit_lor]
  rcases lt_or_ge i k with hik | hik
  · have hb : (b * 2 ^ k).testBit i = false := by
      rw [← Nat.shiftLeft_eq, Nat.testBit_shiftLeft]
      simp [Nat.not_le.mpr hik]
    have hrw : b * 2 ^ k = 2 ^ i * (b * 2 ^ (k - i)) := by
      have hp : (2 : Nat) ^ k = 2 ^ i * 2 ^ (k - i) := by
        rw [← pow_add]; congr 1; omega
      rw [hp]; ring
    have ha : (a + b * 2 ^ k).testBit i = a.testBit i := by
      rw [Nat.testBit_to_div_mod, Nat.testBit_to_div_mod, hrw,
        Nat.add_mul_div_left _ _ (Nat.pos_pow_of_pos i (by norm_num))]
      have heven : b * 2 ^ (k - i) = b * 2 ^ (k - i - 1) * 2 := by
        have : (2 : Nat) ^ (k - i) = 2 ^ (k - i - 1) * 2 := by
          rw [← pow_succ]; congr 1; omega
        rw [this]; ring
      rw [heven, Nat.add_mul_mod_self_right]
    rw [ha, hb, Bool.or_false]
  · have hklei : (2 : Nat) ^ i = 2 ^ k * 2 ^ (i - k) := by
      rw [← pow_add]; congr 1; omega
    have ha : a.testBit i = false := by
      apply Nat.testBit_lt_two_pow
      exact lt_of_lt_of_le h (Nat.pow_le_pow_right (by norm_num) hik)
    have hsum : (a + b * 2 ^ k) / 2 ^ i = b / 2 ^ (i - k) := by
      rw [hklei, ← Nat.div_div_eq_div_mul]
      have h1 : (a + b * 2 ^ k) / 2 ^ k = b := by
        rw [show a + b * 2 ^ k = a + 2 ^ k * b by ring,
          Nat.add_mul_div_left _ _ (Nat.pos_pow_of_pos k (by norm_num)),
          Nat.div_eq_of_lt h, Nat.zero_add]
      rw [h1]
    have hmul : b * 2 ^ k / 2 ^ i = b / 2 ^ (i - k) := by
      rw [hklei, ← Nat.div_div_eq_div_mul]
      have h1 : b * 2 ^ k / 2 ^ k = b :=
        Nat.mul_div_cancel _ (Nat.pos_pow_of_pos k (by norm_num))
      rw [h1]
    have hab : (a + b * 2 ^ k).testBit i = (b * 2 ^ k).testBit i := by
      rw [Nat.testBit_to_div_mod, Nat.testBit_to_div_mod, hsum, hmul]
    rw [hab, ha, Bool.false_or]

theorem two_pow_split (s t : Nat) : (2 : Nat) ^ (s + t) = 2 ^ s * 2 ^ t := by
  rw [pow_add]

theorem write_index_spec (packed : List Nat) (i pidx b : Nat)
    (hb1 : 1 ≤ b) (hb2 : b ≤ 63)
    (hmem : ∀ w ∈ packed, w < 2 ^ 64)
    (hpre : packedNat 64 packed < 2 ^ (i * b))
    (hcap : (i + 1) * b ≤ 64 * packed.length) :
    packedNat 64 (write_index packed i pidx b)
        = packedNat 64 packed + pidx % 2 ^ b * 2 ^ (i * b)
      ∧ (write_index packed i pidx b).length = packed.length
      ∧ ∀ x ∈ write_index packed i pidx b, x < 2 ^ 64 := by
  have h2pos : ∀ n : Nat, 0 < (2 : Nat) ^ n := fun n => Nat.pos_pow_of_pos n (by norm_num)
  set o := i * b with ho
  set w := o / 64 with hw
  set bit := o % 64 with hbitdef
  have hob : 64 * w + bit = o := Nat.div_add_mod o 64
  have hbit : bit < 64 := Nat.mod_lt _ (by norm_num)
  have hcap' : o + b ≤ 64 * packed.length := by
    have : (i + 1) * b = o + b := by rw [ho]; ring
    omega
  have hwlen : w < packed.length := by omega
  have hvalue : pidx &&& (1 <<< b - 1) = pidx % 2 ^ b := by
    rw [Nat.shiftLeft_eq, one_mul, Nat.and_pow_two_sub_one_eq_mod]
  set v := pidx % 2 ^ b with hv
  have hvlt : v < 2 ^ b := Nat.mod_lt _ (h2pos b)
  set N := packedNat 64 packed with hN
  have hNlt : N < 2 ^ (64 * w + 64) := by
    apply lt_of_lt_of_le hpre
    apply Nat.pow_le_pow_right (by norm_num)
    omega
  have hgetw : packed.getD w 0 = N / 2 ^ (64 * w) := by
    rw [packedNat_getD 64 packed hmem w, ← hN]
    apply Nat.mod_eq_of_lt
    rw [Nat.div_lt_iff_lt_mul (h2pos _), ← two_pow_split]
    exact lt_of_lt_of_le hNlt (le_of_eq (by ring_nf))
  have holdlt : N / 2 ^ (64 * w) < 2 ^ bit := by
    rw [Nat.div_lt_iff_lt_mul (h2pos _), ← two_pow_split]
    calc N < 2 ^ o := hpre
      _ ≤ 2 ^ (bit + 64 * w) := by apply Nat.pow_le_pow_right (by norm_num); omega
  by_cases hsp : 64 < bit + b
  · -- the value straddles a word boundary
    have hdef : write_index packed i pidx b =
        (packed.set w (packed.getD w 0 ||| (v <<< bit) % 2 ^ 64)).set (w + 1)
          ((packed.set w (packed.getD w 0 ||| (v <<< bit) % 2 ^ 64)).getD (w + 1) 0
            ||| (v >>> (b - (bit + b - 64)))) := by
      simp only [write_index, hvalue, ← ho, ← hw, ← hbitdef]
      rw [if_pos hsp]
    have hX : (v <<< bit) % 2 ^ 64 = v % 2 ^ (64 - bit) * 2 ^ bit := by
      rw [Nat.shiftLeft_eq,
        show (2 : Nat) ^ 64 = 2 ^ (64 - bit) * 2 ^ bit by rw [← two_pow_split]; congr 1; omega,
        Nat.mul_mod_mul_right]
    have hlow : v % 2 ^ (64 - bit) < 2 ^ (64 - bit) := Nat.mod_lt _ (h2pos _)
    have hnw : packed.getD w 0 ||| (v <<< bit) % 2 ^ 64
        = N / 2 ^ (64 * w) + v % 2 ^ (64 - bit) * 2 ^ bit := by
      rw [hX, hgetw, lor_two_pow_mul_eq_add _ _ _ holdlt]
    have hnwlt : N / 2 ^ (64 * w) + v % 2 ^ (64 - bit) * 2 ^ bit < 2 ^ 64 := by
      calc N / 2 ^ (64 * w) + v % 2 ^ (64 - bit) * 2 ^ bit
          < 2 ^ bit + v % 2 ^ (64 - bit) * 2 ^ bit := by omega
        _ = (1 + v % 2 ^ (64 - bit)) * 2 ^ bit := by ring
        _ ≤ 2 ^ (64 - bit) * 2 ^ bit := by
            apply Nat.mul_le_mul_right
            omega
        _ = 2 ^ 64 := by rw [← two_pow_split]; congr 1; omega
    set P1 := packed.set w (packed.getD w 0 ||| (v <<< bit) % 2 ^ 64) with hP1
    have hmem1 : ∀ x ∈ P1, x < 2 ^ 64 := by
      apply mem_set_lt hmem
      rw [hnw]; exact hnwlt
    have hlen1 : P1.length = packed.length := List.length_set _ _ _
    have hN1 : packedNat 64 P1 = N + v % 2 ^ (64 - bit) * 2 ^ o := by
      have hPeq : P1 = packed.set w (N / 2 ^ (64 * w) + v % 2 ^ (64 - bit) * 2 ^ bit) := by
        rw [hP1, hnw]
      have hset := packedNat_set 64 packed w hwlen
        (N / 2 ^ (64 * w) + v % 2 ^ (64 - bit) * 2 ^ bit)
      rw [hgetw, Nat.add_mul] at hset
      have hstep : packedNat 64 P1 = N + v % 2 ^ (64 - bit) * 2 ^ bit * 2 ^ (64 * w) := by
        rw [hPeq]; linarith [hset]
      rw [hstep, Nat.mul_assoc, ← two_pow_split,
        show bit + 64 * w = o by omega]
    have hN1lt : packedNat 64 P1 < 2 ^ (64 * (w + 1)) := by
      rw [hN1]
      have hle1 : 1 ≤ (2 : Nat) ^ (64 - bit) := h2pos _
      calc N + v % 2 ^ (64 - bit) * 2 ^ o
          < 2 ^ o + v % 2 ^ (64 - bit) * 2 ^ o := Nat.add_lt_add_right hpre _
        _ ≤ 2 ^ o + (2 ^ (64 - bit) - 1) * 2 ^ o := by
            apply Nat.add_le_add_left
            exact Nat.mul_le_mul_right _ (by omega)
        _ = (1 + (2 ^ (64 - bit) - 1)) * 2 ^ o := by ring
        _ = 2 ^ (64 - bit) * 2 ^ o := by congr 1; omega
        _ = 2 ^ (64 * (w + 1)) := by rw [← two_pow_split]; congr 1; omega
    have hget1 : P1.getD (w + 1) 0 = 0 := by
      rw [packedNat_getD 64 P1 hmem1 (w + 1)]
      rw [Nat.div_eq_of_lt hN1lt, Nat.zero_mod]
    have hsp' : v >>> (b - (bit + b - 64)) = v / 2 ^ (64 - bit) := by
      rw [Nat.shiftRight_eq_div_pow]
      congr 2
      omega
    have hsplt : v / 2 ^ (64 - bit) < 2 ^ 64 := by
      apply lt_of_le_of_lt (Nat.div_le_self _ _)
      calc v < 2 ^ b := hvlt
        _ ≤ 2 ^ 64 := Nat.pow_le_pow_right (by norm_num) (by omega)
    have hw1len : w + 1 < P1.length := by rw [hlen1]; omega
    have hfin : P1.getD (w + 1) 0 ||| v >>> (b - (bit + b - 64)) = v / 2 ^ (64 - bit) := by
      rw [hget1, hsp', Nat.zero_or]
    rw [hdef]
    refine ⟨?_, ?_, ?_⟩
    · rw [hfin]
      have hset := packedNat_set 64 P1 (w + 1) hw1len (v / 2 ^ (64 - bit))
      rw [hget1, Nat.zero_mul, Nat.add_zero] at hset
      rw [hset, hN1]
      have hvsplit : 2 ^ (64 - bit) * (v / 2 ^ (64 - bit)) + v % 2 ^ (64 - bit) = v :=
        Nat.div_add_mod v (2 ^ (64 - bit))
      have h64w1 : (2 : Nat) ^ (64 * (w + 1)) = 2 ^ (64 - bit) * 2 ^ o := by
        rw [← two_pow_split]; congr 1; omega
      rw [h64w1]
      calc N + v % 2 ^ (64 - bit) * 2 ^ o + v / 2 ^ (64 - bit) * (2 ^ (64 - bit) * 2 ^ o)
          = N + (2 ^ (64 - bit) * (v / 2 ^ (64 - bit)) + v % 2 ^ (64 - bit)) * 2 ^ o := by
            ring
        _ = N + v * 2 ^ o := by rw [hvsplit]
    · rw [List.length_set, hlen1]
    · apply mem_set_lt hmem1
      rw [hfin]
      exact hsplt
  · -- the value fits inside one word
    have hdef : write_index packed i pidx b =
        packed.set w (packed.getD w 0 ||| (v <<< bit) % 2 ^ 64) := by
      simp only [write_index, hvalue, ← ho, ← hw, ← hbitdef]
      rw [if_neg hsp]
    have hX : (v <<< bit) % 2 ^ 64 = v * 2 ^ bit := by
      rw [Nat.shiftLeft_eq]
      apply Nat.mod_eq_of_lt
      calc v * 2 ^ bit < 2 ^ b * 2 ^ bit := by
            apply Nat.mul_lt_mul_right (h2pos _) |>.mpr hvlt
        _ = 2 ^ (b + bit) := by rw [← two_pow_split]
        _ ≤ 2 ^ 64 := Nat.pow_le_pow_right (by norm_num) (by omega)
    have hnw : packed.getD w 0 ||| (v <<< bit) % 2 ^ 64
        = N / 2 ^ (64 * w) + v * 2 ^ bit := by
      rw [hX, hgetw, lor_two_pow_mul_eq_add _ _ _ holdlt]
    have hnwlt : N / 2 ^ (64 * w) + v * 2 ^ bit < 2 ^ 64 := by
      calc N / 2 ^ (64 * w) + v * 2 ^ bit < 2 ^ bit + v * 2 ^ bit := by omega
        _ = (1 + v) * 2 ^ bit := by ring
        _ ≤ 2 ^ b * 2 ^ bit := Nat.mul_le_mul_right _ (by omega)
        _ = 2 ^ (b + bit) := by rw [← two_pow_split]
        _ ≤ 2 ^ 64 := Nat.pow_le_pow_right (by norm_num) (by omega)
    rw [hdef]
    refine ⟨?_, List.length_set _ _ _, ?_⟩
    · rw [hnw]
      have hset := packedNat_set 64 packed w hwlen (N / 2 ^ (64 * w) + v * 2 ^ bit)
      rw [hgetw, Nat.add_mul] at hset
      have hstep : packedNat 64 (packed.set w (N / 2 ^ (64 * w) + v * 2 ^ bit))
          = N + v * 2 ^ bit * 2 ^ (64 * w) := by
        linarith [hset]
      rw [hstep, Nat.mul_assoc, ← two_pow_split, show bit + 64 * w = o by omega]
    · apply mem_set_lt hmem
      rw [hnw]
      exact hnwlt

theorem ceil_div_mul_le (x : Nat) : x ≤ 64 * ((x + 63) / 64) := by
  have hdm := Nat.div_add_mod (x + 63) 64
  have hlt : (x + 63) % 64 < 64 := Nat.mod_lt _ (by norm_num)
  omega

theorem pack_fold_spec (blocks : List BlockId) (f : BlockId → Nat) (b : Nat)
    (hb1 : 1 ≤ b) (hb2 : b ≤ 63) :
    ∀ n, n ≤ blocks.length →
    packedNat 64 ((List.range n).foldl
        (fun packed i => write_index packed i (f (blocks.getD i 0)) b)
        (List.replicate ((blocks.length * b + 63) / 64) 0))
      = packedNat b ((blocks.take n).map (fun blk => f blk % 2 ^ b))
    ∧ ((List.range n).foldl
        (fun packed i => write_index packed i (f (blocks.getD i 0)) b)
        (List.replicate ((blocks.length * b + 63) / 64) 0)).length
      = (blocks.length * b + 63) / 64
    ∧ ∀ x ∈ (List.range n).foldl
        (fun packed i => write_index packed i (f (blocks.getD i 0)) b)
        (List.replicate ((blocks.length * b + 63) / 64) 0), x < 2 ^ 64 := by
  intro n
  induction n with
  | zero =>
    intro _
    simp only [List.range_zero, List.foldl_nil, List.take_zero, List.map_nil]
    refine ⟨by simp [packedNat_replicate_zero, packedNat], by simp, ?_⟩
    intro x hx
    rw [List.eq_of_mem_replicate hx]
    exact Nat.pos_pow_of_pos 64 (by norm_num)
  | succ n ih =>
    intro hn1
    have hn : n ≤ blocks.length := Nat.le_of_succ_le hn1
    obtain ⟨ihN, ihL, ihM⟩ := ih hn
    rw [List.range_succ, List.foldl_append, List.foldl_cons, List.foldl_nil]
    have hmapmem : ∀ v ∈ (blocks.take n).map (fun blk => f blk % 2 ^ b), v < 2 ^ b := by
      intro v hv
      obtain ⟨blk, _, rfl⟩ := List.mem_map.mp hv
      exact Nat.mod_lt _ (Nat.pos_pow_of_pos b (by norm_num))
    have hmaplen : ((blocks.take n).map (fun blk => f blk % 2 ^ b)).length = n := by
      simp [List.length_take]
      omega
    have hpre : packedNat 64 ((List.range n).foldl
        (fun packed i => write_index packed i (f (blocks.getD i 0)) b)
        (List.replicate ((blocks.length * b + 63) / 64) 0)) < 2 ^ (n * b) := by
      have hlt := packedNat_lt b ((blocks.take n).map (fun blk => f blk % 2 ^ b)) hmapmem
      rw [hmaplen] at hlt
      rw [ihN, Nat.mul_comm n b]
      exact hlt
    have hcapn : (n + 1) * b ≤ 64 * ((List.range n).foldl
        (fun packed i => write_index packed i (f (blocks.getD i 0)) b)
        (List.replicate ((blocks.length * b + 63) / 64) 0)).length := by
      rw [ihL]
      calc (n + 1) * b ≤ blocks.length * b := Nat.mul_le_mul_right b hn1
        _ ≤ 64 * ((blocks.length * b + 63) / 64) := ceil_div_mul_le _
    obtain ⟨w1, w2, w3⟩ := write_index_spec _ n (f (blocks.getD n 0)) b hb1 hb2 ihM hpre hcapn
    refine ⟨?_, by rw [w2, ihL], w3⟩
    rw [w1, ihN]
    have htake : (blocks.take (n + 1)).map (fun blk => f blk % 2 ^ b)
        = (blocks.take n).map (fun blk => f blk % 2 ^ b)
          ++ [f (blocks.getD n 0) % 2 ^ b] := by
      rw [List.take_succ, List.map_append]
      congr 1
      rw [List.getElem?_eq_getElem (show n < blocks.length by omega)]
      simp only [Option.toList_some, List.map_cons, List.map_nil]
      rw [List.getD_eq_getElem _ _ (show n < blocks.length by omega)]
    rw [htake, packedNat_append_single, hmaplen, Nat.mul_comm b n]

theorem pack_blocks_spec (blocks : List BlockId) (f : BlockId → Nat) (b : Nat)
    (hb1 : 1 ≤ b) (hb2 : b ≤ 63) :
    packedNat 64 (pack_blocks blocks f b)
      = packedNat b (blocks.map (fun blk => f blk % 2 ^ b))
    ∧ (pack_blocks blocks f b).length = (blocks.length * b + 63) / 64
    ∧ ∀ x ∈ pack_blocks blocks f b, x < 2 ^ 64 := by
  have hmain := pack_fold_spec blocks f b hb1 hb2 blocks.length le_rfl
  rw [List.take_length] at hmain
  simp only [pack_blocks]
  rw [if_neg (by omega)]
  exact hmain

theorem unpack_index_spec (ws : List Nat) (i b : Nat) (hb1 : 1 ≤ b) (hb2 : b ≤ 63)
    (hmem : ∀ x ∈ ws, x < 2 ^ 64) :
    unpack_index ws i b = packedNat 64 ws / 2 ^ (i * b) % 2 ^ b := by
  have h2pos : ∀ n : Nat, 0 < (2 : Nat) ^ n := fun n => Nat.pos_pow_of_pos n (by norm_num)
  simp only [unpack_index]
  set o := i * b with ho
  set w := o / 64 with hw
  set bit := o % 64 with hbitdef
  have hob : 64 * w + bit = o := Nat.div_add_mod o 64
  have hbit : bit < 64 := Nat.mod_lt _ (by norm_num)
  set N := packedNat 64 ws with hN
  have hval : ws.getD w 0 >>> bit &&& (1 <<< b - 1)
      = N / 2 ^ o % 2 ^ (64 - bit) % 2 ^ b := by
    rw [packedNat_getD 64 ws hmem w, ← hN, Nat.shiftLeft_eq, one_mul,
      Nat.and_pow_two_sub_one_eq_mod, Nat.shiftRight_eq_div_pow,
      show (2 : Nat) ^ 64 = 2 ^ bit * 2 ^ (64 - bit) by rw [← two_pow_split]; congr 1; omega,
      Nat.mod_mul_right_div_self, Nat.div_div_eq_div_mul, ← two_pow_split, hob]
  by_cases hsp : 64 < bit + b
  · rw [if_pos hsp]
    have hvalue2 : N / 2 ^ o % 2 ^ (64 - bit) % 2 ^ b = N / 2 ^ o % 2 ^ (64 - bit) := by
      apply Nat.mod_eq_of_lt
      calc N / 2 ^ o % 2 ^ (64 - bit) < 2 ^ (64 - bit) := Nat.mod_lt _ (h2pos _)
        _ ≤ 2 ^ b := Nat.pow_le_pow_right (by norm_num) (by omega)
    have hspillv : ws.getD (w + 1) 0 &&& (1 <<< (bit + b - 64) - 1)
        = N / 2 ^ (64 * (w + 1)) % 2 ^ (bit + b - 64) := by
      rw [packedNat_getD 64 ws hmem (w + 1), ← hN, Nat.shiftLeft_eq, one_mul,
        Nat.and_pow_two_sub_one_eq_mod]
      exact Nat.mod_mod_of_dvd _ (pow_dvd_pow 2 (by omega))
    rw [hval, hvalue2, hspillv, Nat.shiftLeft_eq,
      show b - (bit + b - 64) = 64 - bit by omega,
      lor_two_pow_mul_eq_add _ _ _ (Nat.mod_lt _ (h2pos _))]
    have hrhs : N / 2 ^ o % 2 ^ b
        = N / 2 ^ o % 2 ^ (64 - bit)
          + 2 ^ (64 - bit) * (N / 2 ^ o / 2 ^ (64 - bit) % 2 ^ (bit + b - 64)) := by
      rw [show (2 : Nat) ^ b = 2 ^ (64 - bit) * 2 ^ (bit + b - 64) by
            rw [← two_pow_split]; congr 1; omega]
      exact Nat.mod_mul
    rw [hrhs, Nat.div_div_eq_div_mul, ← two_pow_split,
      show o + (64 - bit) = 64 * (w + 1) by omega]
    ring
  · rw [if_neg hsp]
    rw [hval]
    exact Nat.mod_mod_of_dvd _ (pow_dvd_pow 2 (by omega))

theorem unpack_pack (blocks : List BlockId) (f : BlockId → Nat) (b : Nat)
    (hb1 : 1 ≤ b) (hb2 : b ≤ 63) (i : Nat) (hi : i < blocks.length) :
    unpack_index (pack_blocks blocks f b) i b = f (blocks.getD i 0) % 2 ^ b := by
  obtain ⟨hNeq, hL, hM⟩ := pack_blocks_spec blocks f b hb1 hb2
  rw [unpack_index_spec _ i b hb1 hb2 hM, hNeq]
  have hmapmem : ∀ v ∈ blocks.map (fun blk => f blk % 2 ^ b), v < 2 ^ b := by
    intro v hv
    obtain ⟨blk, _, rfl⟩ := List.mem_map.mp hv
    exact Nat.mod_lt _ (Nat.pos_pow_of_pos b (by norm_num))
  rw [Nat.mul_comm i b, ← packedNat_getD b _ hmapmem i]
  rw [List.getD_eq_getElem _ _ (by simpa using hi), List.getElem_map,
    List.getD_eq_getElem _ _ hi]

/-! ## Palette properties -/

theorem build_palette_loop_sub (blocks : List BlockId) :
    ∀ acc : List BlockId, ∀ x ∈ acc,
      x ∈ blocks.foldl (fun palette block =>
        if palette.contains block then palette else palette ++ [block]) acc := by
  induction blocks with
  | nil => intro acc x hx; simpa using hx
  | cons blk blocks ih =>
    intro acc x hx
    simp only [List.foldl_cons]
    apply ih
    by_cases hc : acc.contains blk
    · rw [if_pos hc]; exact hx
    · rw [if_neg hc]; exact List.mem_append_left _ hx

theorem build_palette_loop_mem (blocks : List BlockId) :
    ∀ acc : List BlockId, ∀ blk ∈ blocks,
      blk ∈ blocks.foldl (fun palette block =>
        if palette.contains block then palette else palette ++ [block]) acc := by
  induction blocks with
  | nil => intro acc blk h; simp at h
  | cons b0 blocks ih =>
    intro acc blk hblk
    simp only [List.foldl_cons]
    rcases List.mem_cons.mp hblk with rfl | hmem
    · apply build_palette_loop_sub
      by_cases hc : acc.contains blk
      · rw [if_pos hc]; simpa using hc
      · rw [if_neg hc]; exact List.mem_append_right _ (List.mem_singleton_self _)
    · exact ih _ blk hmem

theorem build_palette_loop_len (blocks : List BlockId) :
    ∀ acc : List BlockId,
      (blocks.foldl (fun palette block =>
        if palette.contains block then palette else palette ++ [block]) acc).length
        ≤ acc.length + blocks.length := by
  induction blocks with
  | nil => intro acc; simp
  | cons b0 blocks ih =>
    intro acc
    simp only [List.foldl_cons]
    by_cases hc : acc.contains b0
    · rw [if_pos hc]
      calc _ ≤ acc.length + blocks.length := ih acc
        _ ≤ acc.length + (b0 :: blocks).length := by simp [List.length_cons]
    · rw [if_neg hc]
      calc _ ≤ (acc ++ [b0]).length + blocks.length := ih _
        _ = acc.length + (b0 :: blocks).length := by simp [List.length_append]; omega

theorem build_palette_mem {blocks : List BlockId} {blk : BlockId} (h : blk ∈ blocks) :
    blk ∈ build_palette blocks :=
  build_palette_loop_mem blocks [] blk h

theorem build_palette_length_le (blocks : List BlockId) :
    (build_palette blocks).length ≤ blocks.length := by
  have := build_palette_loop_len blocks []
  simpa [build_palette] using this

theorem build_palette_ne_nil {blocks : List BlockId} (h : blocks ≠ []) :
    build_palette blocks ≠ [] := by
  obtain ⟨b0, rest, rfl⟩ := List.exists_cons_of_ne_nil h
  exact List.ne_nil_of_mem (build_palette_mem (List.mem_cons_self _ _))

/-! ## Properties of bits_required -/

theorem bits_required_eq_zero_iff (n : Nat) : bits_required n = 0 ↔ n ≤ 1 := by
  unfold bits_required
  by_cases h : n ≤ 1
  · simp [h]
  · rw [if_neg h]
    constructor
    · intro hs
      have := Nat.size_eq_zero.mp hs
      omega
    · intro h1; omega

theorem bits_required_pos {n : Nat} (h : 2 ≤ n) : 1 ≤ bits_required n := by
  have := (bits_required_eq_zero_iff n).not
  omega

theorem le_two_pow_bits_required {n : Nat} (_h : 1 ≤ n) : n ≤ 2 ^ bits_required n := by
  unfold bits_required
  by_cases h1 : n ≤ 1
  · rw [if_pos h1]; simpa using h1
  · rw [if_neg h1]
    have := Nat.lt_size_self (n - 1)
    omega

theorem bits_required_le_of_le {n m : Nat} (h : n ≤ 2 ^ m) : bits_required n ≤ m := by
  unfold bits_required
  by_cases h1 : n ≤ 1
  · simp [h1]
  · rw [if_neg h1]
    rw [Nat.size_le]
    have h2 : 2 ≤ n := by omega
    calc n - 1 < n := by omega
      _ ≤ 2 ^ m := h

theorem block_index_ok {coord : LocalBlockCoord} {idx : Nat}
    (h : Chunk.block_index coord = .ok idx) :
    coord.x < 32 ∧ coord.y < 32 ∧ coord.z < 4
      ∧ idx = coord.x + coord.y * 32 + coord.z * 1024 ∧ idx < 4096 := by
  unfold Chunk.block_index at h
  split at h
  · exact absurd h (by simp)
  · rename_i hcond
    simp only [CHUNK_WIDTH, CHUNK_DEPTH, CHUNK_HEIGHT] at hcond ⊢
    push_neg at hcond
    obtain ⟨hx, hy, hz⟩ := hcond
    injection h with h
    simp only [CHUNK_WIDTH, CHUNK_DEPTH, CHUNK_HEIGHT] at h
    omega

theorem from_chunk_get_block_eq (c : Chunk)
    (hlen : c.blocks.length = CHUNK_BLOCKS) (coord : LocalBlockCoord) :
    (CachedChunk.from_chunk c).get_block coord = c.get_block coord := by
  have hlen' : c.blocks.length = 4096 := by
    simpa [CHUNK_BLOCKS, CHUNK_WIDTH, CHUNK_DEPTH, CHUNK_HEIGHT] using hlen
  have hne : c.blocks ≠ [] := by
    intro h; rw [h] at hlen'; simp at hlen'
  have hpne : build_palette c.blocks ≠ [] := build_palette_ne_nil hne
  have hplen_pos : 1 ≤ (build_palette c.blocks).length := List.length_pos.mpr hpne
  have hple : (build_palette c.blocks).length ≤ 4096 :=
    le_trans (build_palette_length_le _) (by omega)
  simp only [CachedChunk.from_chunk, CachedChunk.from_chunk_with_changed,
    CachedChunk.get_block, Chunk.get_block]
  rw [if_neg (by simpa [List.isEmpty_iff] using hpne)]
  cases hidx : Chunk.block_index coord with
  | error e => rfl
  | ok idx =>
    obtain ⟨hx, hy, hz, hidxeq, hidxlt⟩ := block_index_ok hidx
    show (if bits_required (build_palette c.blocks).length = 0 then
        Except.ok ((build_palette c.blocks).getD 0 0)
      else
        match (build_palette c.blocks).get?
            (unpack_index
              (pack_blocks c.blocks (fun b => List.indexOf b (build_palette c.blocks))
                (bits_required (build_palette c.blocks).length))
              idx (bits_required (build_palette c.blocks).length)) with
        | some b => Except.ok b
        | none => Except.error (ChunkError.InvalidBlockCount
            (unpack_index
              (pack_blocks c.blocks (fun b => List.indexOf b (build_palette c.blocks))
                (bits_required (build_palette c.blocks).length))
              idx (bits_required (build_palette c.blocks).length))))
      = Except.ok (c.blocks.getD idx 0)
    have hmem : c.blocks.getD idx 0 ∈ c.blocks := by
      rw [List.getD_eq_getElem _ _ (by omega)]
      exact List.getElem_mem _
    have hmp : c.blocks.getD idx 0 ∈ build_palette c.blocks := build_palette_mem hmem
    by_cases hbz : bits_required (build_palette c.blocks).length = 0
    · rw [if_pos hbz]
      have hp1 : (build_palette c.blocks).length = 1 := by
        have := (bits_required_eq_zero_iff (build_palette c.blocks).length).mp hbz
        omega
      obtain ⟨p, hp⟩ := List.length_eq_one.mp hp1
      rw [hp] at hmp
      have heq : c.blocks.getD idx 0 = p := by simpa using hmp
      rw [hp, heq]
      rfl
    · rw [if_neg hbz]
      have hp2 : 2 ≤ (build_palette c.blocks).length := by
        have := (bits_required_eq_zero_iff (build_palette c.blocks).length).mpr
        omega
      have hb1 : 1 ≤ bits_required (build_palette c.blocks).length :=
        bits_required_pos hp2
      have hb2 : bits_required (build_palette c.blocks).length ≤ 63 :=
        bits_required_le_of_le (le_trans hple (by norm_num))
      have hup := unpack_pack c.blocks (fun b => (build_palette c.blocks).indexOf b)
        (bits_required (build_palette c.blocks).length) hb1 hb2 idx (by omega)
      rw [hup]
      have hio : (build_palette c.blocks).indexOf (c.blocks.getD idx 0)
          < (build_palette c.blocks).length := List.indexOf_lt_length.mpr hmp
      have hple2 : (build_palette c.blocks).length
          ≤ 2 ^ bits_required (build_palette c.blocks).length :=
        le_two_pow_bits_required (by omega)
      rw [Nat.mod_eq_of_lt (lt_of_lt_of_le hio hple2)]
      rw [List.get?_eq_getElem?, List.getElem?_eq_getElem hio, List.getElem_indexOf hio]

/-- C1: compressing any dense voxel chunk into the palette form and then
decoding any local coordinate returns exactly the dense chunk's own answer
(including the out-of-bounds error cases); in particular every reachable
palette size (1, 2, or any non-power-of-two count whose packed indices
straddle 64-bit word boundaries) decodes losslessly. -/
theorem C1_palette_compression_roundtrip (c : Chunk)
    (hlen : c.blocks.length = CHUNK_BLOCKS) (coord : LocalBlockCoord) :
    (CachedChunk.from_chunk c).get_block coord = c.get_block coord :=
  from_chunk_get_block_eq c hlen coord

/-! ## Claim C4: bits per packed index -/

/-- Modelled from the spec's words: the formula
"ceil(log2(max(palette_len-1,1)))" that the spec claims the program uses for
the packed index width.  `Nat.clog 2` is the ceiling base-2 logarithm. -/
def spec_bits_formula (palette_len : Nat) : Nat :=
  Nat.clog 2 (max (palette_len - 1) 1)

theorem nat_size_eq_log_succ {m : Nat} (h : 1 ≤ m) :
    Nat.size m = Nat.log 2 m + 1 := by
  have h1 : Nat.size m ≤ Nat.log 2 m + 1 :=
    Nat.size_le.mpr (Nat.lt_pow_succ_log_self (by norm_num) m)
  have h2 : ¬ Nat.size m ≤ Nat.log 2 m := by
    intro hle
    have hlt : m < 2 ^ Nat.log 2 m :=
      lt_of_lt_of_le (Nat.lt_size_self m) (Nat.pow_le_pow_right (by norm_num) hle)
    have hge : 2 ^ Nat.log 2 m ≤ m := Nat.pow_log_le_self 2 (by omega)
    omega
  omega

/-- C4 counterexample: for a palette of exactly 2 entries the program packs
one bit per index, while the spec's formula ceil(log2(max(2-1,1))) yields
zero bits. -/
theorem C4_counterexample :
    bits_required 2 = 1 ∧ spec_bits_formula 2 = 0
      ∧ bits_required 2 ≠ spec_bits_formula 2 := by
  have h1 : bits_required 2 = 1 := by
    unfold bits_required
    rw [if_neg (by norm_num)]
    exact Nat.size_one
  have h2 : spec_bits_formula 2 = 0 := by
    unfold spec_bits_formula
    norm_num [Nat.clog_one_right]
  exact ⟨h1, h2, by omega⟩

/-- C4 amended: the program uses floor(log2(palette_len-1)) + 1 bits per
index (the bit length of palette_len - 1) when the palette has at least two
entries, and zero bits when the palette has zero or one entries; with zero
bits per index no packed words are stored at all and every in-bounds voxel
decodes to the single palette entry. -/
theorem C4_bits_per_index :
    (∀ n, 2 ≤ n → bits_required n = Nat.log 2 (n - 1) + 1)
    ∧ (∀ n, n ≤ 1 → bits_required n = 0)
    ∧ (∀ (blocks : List BlockId) (f : BlockId → Nat), pack_blocks blocks f 0 = [])
    ∧ (∀ (c : Chunk), c.blocks.length = CHUNK_BLOCKS →
        (CachedChunk.from_chunk c).bits_per_index = 0 →
        (CachedChunk.from_chunk c).blocks = []
          ∧ ∀ (coord : LocalBlockCoord) (idx : Nat),
              Chunk.block_index coord = .ok idx →
              (CachedChunk.from_chunk c).get_block coord
                = .ok ((CachedChunk.from_chunk c).palette.getD 0 0)) := by
  refine ⟨?_, ?_, ?_, ?_⟩
  · intro n hn
    unfold bits_required
    rw [if_neg (by omega)]
    exact nat_size_eq_log_succ (by omega)
  · intro n hn
    unfold bits_required
    rw [if_pos hn]
  · intro blocks f
    simp [pack_blocks]
  · intro c hlen hbits
    have hlen' : c.blocks.length = 4096 := by
      simpa [CHUNK_BLOCKS, CHUNK_WIDTH, CHUNK_DEPTH, CHUNK_HEIGHT] using hlen
    have hne : c.blocks ≠ [] := by
      intro h; rw [h] at hlen'; simp at hlen'
    have hpne : build_palette c.blocks ≠ [] := build_palette_ne_nil hne
    have hbits' : bits_required (build_palette c.blocks).length = 0 := by
      simpa [CachedChunk.from_chunk, CachedChunk.from_chunk_with_changed] using hbits
    constructor
    · simp only [CachedChunk.from_chunk, CachedChunk.from_chunk_with_changed]
      rw [hbits']
      simp [pack_blocks]
    · intro coord idx hidx
      simp only [CachedChunk.from_chunk, CachedChunk.from_chunk_with_changed,
        CachedChunk.get_block]
      rw [if_neg (by simpa [List.isEmpty_iff] using hpne), hidx]
      show (if bits_required (build_palette c.blocks).length = 0 then
            Except.ok ((build_palette c.blocks).getD 0 0)
          else
            match (build_palette c.blocks).get?
                (unpack_index
                  (pack_blocks c.blocks (fun b => List.indexOf b (build_palette c.blocks))
                    (bits_required (build_palette c.blocks).length))
                  idx (bits_required (build_palette c.blocks).length)) with
            | some b => Except.ok b
            | none => Except.error (ChunkError.InvalidBlockCount
                (unpack_index
                  (pack_blocks c.blocks (fun b => List.indexOf b (build_palette c.blocks))
                    (bits_required (build_palette c.blocks).length))
                  idx (bits_required (build_palette c.blocks).length))))
        = Except.ok ((build_palette c.blocks).getD 0 0)
      rw [if_pos hbits']

/-! ## worldgen.rs -/

def HORIZONTAL_LIMIT : Int := 1024

def VERTICAL_LIMIT : Int := 65

/-- Rust `i32::saturating_add(1)`; adding one can only hit the upper clamp. -/
def i32_saturating_add_one (z : Int) : Int :=
  if 2147483647 < z + 1 then 2147483647 else z + 1

/-- The deterministic generator.  The source stores only a seed; its one
probabilistic choice, `rng_for_coord(coord).u32(0..100) < 5`, hashes the seed
together with the exact coordinate and is therefore a pure function of
(seed, coordinate).  That Boolean function is abstracted here as `ironAt`:
every seed induces one `DeterministicMap`, and both `STONE`/`IRON` sites of
`block_at` consult it at the same shifted coordinate, exactly as the source
calls `rng_for_coord(shifted)` in both arms. -/
structure DeterministicMap where
  ironAt : WorldCoord → Bool

def DeterministicMap.within_bounds (_ : DeterministicMap) (coord : WorldCoord) : Prop :=
  -HORIZONTAL_LIMIT ≤ coord.x ∧ coord.x ≤ HORIZONTAL_LIMIT
    ∧ -HORIZONTAL_LIMIT ≤ coord.y ∧ coord.y ≤ HORIZONTAL_LIMIT
    ∧ -VERTICAL_LIMIT ≤ coord.z ∧ coord.z ≤ VERTICAL_LIMIT

instance (m : DeterministicMap) (coord : WorldCoord) :
    Decidable (m.within_bounds coord) := by
  unfold DeterministicMap.within_bounds
  infer_instance

def DeterministicMap.block_at (m : DeterministicMap) (coord : WorldCoord) : BlockId :=
  let shifted : WorldCoord := ⟨coord.x, coord.y, i32_saturating_add_one coord.z⟩
  if ¬ m.within_bounds shifted then AIR
  else if shifted.z = VERTICAL_LIMIT then AIR
  else if shifted.z = -VERTICAL_LIMIT then BEDROCK
  else if shifted.x ≤ 0 then
    if -4 ≤ shifted.z ∧ shifted.z ≤ 0 then DIRT
    else if -64 ≤ shifted.z ∧ shifted.z ≤ -5 then
      (if m.ironAt shifted then IRON else STONE)
    else AIR
  else if (0 < shifted.x ∧ -64 ≤ shifted.z ∧ shifted.z ≤ 0)
      ∨ (0 < shifted.x - shifted.z + 1 ∧ 0 < shifted.z) then
    (if m.ironAt shifted then IRON else STONE)
  else AIR

/-- One voxel write of the population loop; the source's `.expect` cannot
fire because the loop only produces in-bounds local coordinates, so the error
arm (which keeps the chunk unchanged) is unreachable. -/
def DeterministicMap.populate_chunk (m : DeterministicMap) (chunk : Chunk)
    (position : ChunkPosition) : Chunk :=
  let base_x := position.x * (CHUNK_WIDTH : Int)
  let base_y := position.y * (CHUNK_DEPTH : Int)
  let base_z := position.z * (CHUNK_HEIGHT : Int)
  (List.range CHUNK_HEIGHT).foldl (fun ch z =>
    (List.range CHUNK_DEPTH).foldl (fun ch y =>
      (List.range CHUNK_WIDTH).foldl (fun ch x =>
        match ch.set_block ⟨x, y, z⟩
            (m.block_at ⟨base_x + (x : Int), base_y + (y : Int), base_z + (z : Int)⟩) with
        | .ok ch2 => ch2
        | .error _ => ch) ch) ch)
    { chunk with position := position }

def DeterministicMap.chunk_for_position (m : DeterministicMap)
    (position : ChunkPosition) : Chunk :=
  m.populate_chunk (Chunk.new position AIR) position

/-- C2 counterexample: world coordinate (0,0,-66) lies outside the vertical
limit (|z| > 65), yet for any seed the generator returns BEDROCK there, not
AIR, because the generator bounds-checks the shifted coordinate z+1 = -65 and
hits the bedrock floor rule.  The source's own test asserts this value. -/
theorem C2_counterexample :
    DeterministicMap.block_at ⟨fun _ => false⟩ ⟨0, 0, -66⟩ = BEDROCK
      ∧ BEDROCK ≠ AIR := by
  constructor
  · rfl
  · simp [BEDROCK, AIR]

set_option maxHeartbeats 1000000 in
/-- C2 amended: for every seed, block_at returns AIR at every coordinate
outside the horizontal limit (|x| > 1024 or |y| > 1024) or vertical limit
(|z| > 65), except the plane z = -66 with x and y inside the horizontal
limit, where it returns BEDROCK: the generator shifts z by +1 before
bounds-checking, placing the bedrock floor at world z = -66. -/
theorem C2_out_of_bounds_is_air :
    (∀ (m : DeterministicMap) (coord : WorldCoord),
      (1024 < coord.x ∨ coord.x < -1024 ∨ 1024 < coord.y ∨ coord.y < -1024
        ∨ 65 < coord.z ∨ coord.z < -65) →
      ¬ (coord.z = -66 ∧ -1024 ≤ coord.x ∧ coord.x ≤ 1024
          ∧ -1024 ≤ coord.y ∧ coord.y ≤ 1024) →
      m.block_at coord = AIR)
    ∧ (∀ (m : DeterministicMap) (x y : Int),
        -1024 ≤ x → x ≤ 1024 → -1024 ≤ y → y ≤ 1024 →
        m.block_at ⟨x, y, -66⟩ = BEDROCK) := by
  constructor
  · intro m coord hout hnotbed
    simp only [DeterministicMap.block_at, DeterministicMap.within_bounds,
      i32_saturating_add_one, HORIZONTAL_LIMIT, VERTICAL_LIMIT]
    split_ifs <;> first | rfl | omega
  · intro m x y hx1 hx2 hy1 hy2
    simp only [DeterministicMap.block_at, DeterministicMap.within_bounds,
      i32_saturating_add_one, HORIZONTAL_LIMIT, VERTICAL_LIMIT]
    split_ifs <;> first | rfl | omega

/-! ## Chunk population agrees with per-voxel generation (C3) -/

theorem getD_set_zero (l : List BlockId) (i j : Nat) (a : BlockId) :
    (l.set i a).getD j 0 = if i = j ∧ j < l.length then a else l.getD j 0 := by
  rw [List.getD_eq_getElem?_getD, List.getD_eq_getElem?_getD, List.getElem?_set]
  by_cases h1 : i = j
  · subst h1
    by_cases h2 : i < l.length
    · rw [if_pos rfl, if_pos h2, if_pos ⟨rfl, h2⟩]
      rfl
    · rw [if_pos rfl, if_neg h2, if_neg (by omega), List.getElem?_eq_none (by omega)]
  · rw [if_neg h1, if_neg (by omega)]

theorem foldl_congr_mem {α β : Type} (l : List α) (f g : β → α → β) (b : β)
    (h : ∀ acc x, x ∈ l → f acc x = g acc x) : l.foldl f b = l.foldl g b := by
  induction l generalizing b with
  | nil => rfl
  | cons a l ih =>
    simp only [List.foldl_cons]
    rw [h b a (List.mem_cons_self _ _)]
    exact ih _ (fun acc x hx => h acc x (List.mem_cons_of_mem _ hx))

theorem seg_fold_spec (n off : Nat) (V : Nat → BlockId) (l : List BlockId) :
    (((List.range n).foldl (fun bl i => bl.set (off + i) (V i)) l).length = l.length)
    ∧ ∀ j, ((List.range n).foldl (fun bl i => bl.set (off + i) (V i)) l).getD j 0
        = if off ≤ j ∧ j < off + n ∧ j < l.length then V (j - off) else l.getD j 0 := by
  induction n with
  | zero =>
    simp only [List.range_zero, List.foldl_nil]
    refine ⟨by simp, fun j => ?_⟩
    rw [if_neg (by omega)]
  | succ n ih =>
    obtain ⟨ihlen, ihget⟩ := ih
    rw [List.range_succ, List.foldl_append, List.foldl_cons, List.foldl_nil]
    refine ⟨by rw [List.length_set, ihlen], fun j => ?_⟩
    rw [getD_set_zero, ihlen, ihget j]
    by_cases hj : off + n = j ∧ j < l.length
    · rw [if_pos hj, if_pos (by omega)]
      congr 1
      omega
    · rw [if_neg hj]
      by_cases hj2 : off ≤ j ∧ j < off + n ∧ j < l.length
      · rw [if_pos hj2, if_pos (by omega)]
      · rw [if_neg hj2, if_neg (by omega)]

theorem fold_segments (n seg base : Nat) (hseg : 0 < seg)
    (F : List BlockId → Nat → List BlockId) (W : Nat → Nat → BlockId)
    (Hlen : ∀ bl t, t < n → (F bl t).length = bl.length)
    (H : ∀ bl t j, t < n →
      (F bl t).getD j 0 = if base + seg * t ≤ j ∧ j < base + seg * t + seg ∧ j < bl.length
        then W t j else bl.getD j 0) (l : List BlockId) :
    (((List.range n).foldl F l).length = l.length)
    ∧ ∀ j, ((List.range n).foldl F l).getD j 0
        = if base ≤ j ∧ j < base + seg * n ∧ j < l.length
          then W ((j - base) / seg) j else l.getD j 0 := by
  induction n with
  | zero =>
    simp only [List.range_zero, List.foldl_nil]
    refine ⟨by simp, fun j => ?_⟩
    rw [if_neg (by omega)]
  | succ n ih =>
    obtain ⟨ihlen, ihget⟩ := ih (fun bl t ht => Hlen bl t (by omega))
      (fun bl t j ht => H bl t j (by omega))
    rw [List.range_succ, List.foldl_append, List.foldl_cons, List.foldl_nil]
    refine ⟨by rw [Hlen _ n (by omega), ihlen], fun j => ?_⟩
    rw [H _ n j (by omega), ihlen, ihget j]
    simp only [Nat.mul_succ]
    by_cases hj : base + seg * n ≤ j ∧ j < base + seg * n + seg ∧ j < l.length
    · rw [if_pos hj, if_pos (by omega)]
      congr 1
      symm
      apply Nat.div_eq_of_lt_le
      · rw [Nat.mul_comm]; omega
      · rw [Nat.succ_mul, Nat.mul_comm]; omega
    · rw [if_neg hj]
      by_cases hj2 : base ≤ j ∧ j < base + seg * n ∧ j < l.length
      · rw [if_pos hj2, if_pos (by omega)]
      · rw [if_neg hj2, if_neg (by omega)]

theorem chunk_fold_blocks {u : List BlockId → Nat → List BlockId}
    {f : Chunk → Nat → Chunk} : ∀ l : List Nat,
    (∀ ch x, x ∈ l → f ch x = { ch with blocks := u ch.blocks x }) →
    ∀ ch : Chunk, l.foldl f ch = { ch with blocks := l.foldl u ch.blocks } := by
  intro l
  induction l with
  | nil => intro _ ch; rfl
  | cons a l ih =>
    intro h ch
    simp only [List.foldl_cons]
    rw [h ch a (List.mem_cons_self _ _)]
    exact ih (fun ch2 x hx => h ch2 x (List.mem_cons_of_mem _ hx)) _

theorem set_block_eq {ch : Chunk} {x y z : Nat} (hx : x < 32) (hy : y < 32)
    (hz : z < 4) (v : BlockId) :
    ch.set_block ⟨x, y, z⟩ v
      = .ok { ch with blocks := ch.blocks.set (z * 1024 + y * 32 + x) v } := by
  unfold Chunk.set_block Chunk.block_index
  simp only [CHUNK_WIDTH, CHUNK_DEPTH, CHUNK_HEIGHT]
  rw [if_neg (by omega)]
  have : x + y * 32 + z * (32 * 32) = z * 1024 + y * 32 + x := by ring
  rw [this]

/-- World coordinate of the voxel at flat index j (row-major x, then y, then
z) of the chunk at the given chunk position. -/
def world_of_index (position : ChunkPosition) (j : Nat) : WorldCoord :=
  ⟨position.x * 32 + ((j % 32 : Nat) : Int),
   position.y * 32 + ((j / 32 % 32 : Nat) : Int),
   position.z * 4 + ((j / 1024 : Nat) : Int)⟩

set_option maxRecDepth 2000 in
theorem populate_chunk_spec (m : DeterministicMap) (ch : Chunk) (pos : ChunkPosition) :
    (m.populate_chunk ch pos).position = pos
    ∧ (m.populate_chunk ch pos).blocks.length = ch.blocks.length
    ∧ ∀ j, (m.populate_chunk ch pos).blocks.getD j 0
        = if j < 4096 ∧ j < ch.blocks.length then m.block_at (world_of_index pos j)
          else ch.blocks.getD j 0 := by
  have hxfold : ∀ (z y : Nat), z < 4 → y < 32 → ∀ ch2 : Chunk,
      (List.range CHUNK_WIDTH).foldl (fun ch x =>
        match ch.set_block ⟨x, y, z⟩
            (m.block_at ⟨pos.x * (CHUNK_WIDTH : Int) + (x : Int),
              pos.y * (CHUNK_DEPTH : Int) + (y : Int),
              pos.z * (CHUNK_HEIGHT : Int) + (z : Int)⟩) with
        | .ok ch2 => ch2
        | .error _ => ch) ch2
      = { ch2 with blocks := (List.range 32).foldl (fun bl x =>
          bl.set (z * 1024 + y * 32 + x)
            (m.block_at (world_of_index pos (z * 1024 + y * 32 + x)))) ch2.blocks } := by
    intro z y hz hy
    apply chunk_fold_blocks
    intro ch2 x hx
    have hx32 : x < 32 := by simpa [CHUNK_WIDTH] using List.mem_range.mp hx
    have hcoord : (⟨pos.x * (CHUNK_WIDTH : Int) + (x : Int),
        pos.y * (CHUNK_DEPTH : Int) + (y : Int),
        pos.z * (CHUNK_HEIGHT : Int) + (z : Int)⟩ : WorldCoord)
        = world_of_index pos (z * 1024 + y * 32 + x) := by
      unfold world_of_index
      have e1 : (z * 1024 + y * 32 + x) % 32 = x := by omega
      have e2 : (z * 1024 + y * 32 + x) / 32 % 32 = y := by omega
      have e3 : (z * 1024 + y * 32 + x) / 1024 = z := by omega
      rw [e1, e2, e3]
      norm_num [CHUNK_WIDTH, CHUNK_DEPTH, CHUNK_HEIGHT]
    rw [hcoord, set_block_eq hx32 hy hz]
  have hyfold : ∀ z : Nat, z < 4 → ∀ ch2 : Chunk,
      (List.range CHUNK_DEPTH).foldl (fun ch y =>
        (List.range CHUNK_WIDTH).foldl (fun ch x =>
          match ch.set_block ⟨x, y, z⟩
              (m.block_at ⟨pos.x * (CHUNK_WIDTH : Int) + (x : Int),
                pos.y * (CHUNK_DEPTH : Int) + (y : Int),
                pos.z * (CHUNK_HEIGHT : Int) + (z : Int)⟩) with
          | .ok ch2 => ch2
          | .error _ => ch) ch) ch2
      = { ch2 with blocks := (List.range 32).foldl (fun bl y =>
          (List.range 32).foldl (fun bl x =>
            bl.set (z * 1024 + y * 32 + x)
              (m.block_at (world_of_index pos (z * 1024 + y * 32 + x)))) bl) ch2.blocks } := by
    intro z hz
    apply chunk_fold_blocks
    intro ch2 y hy
    exact hxfold z y hz (by simpa [CHUNK_DEPTH] using List.mem_range.mp hy) ch2
  have hzfold : ∀ ch2 : Chunk,
      (List.range CHUNK_HEIGHT).foldl (fun ch z =>
        (List.range CHUNK_DEPTH).foldl (fun ch y =>
          (List.range CHUNK_WIDTH).foldl (fun ch x =>
            match ch.set_block ⟨x, y, z⟩
                (m.block_at ⟨pos.x * (CHUNK_WIDTH : Int) + (x : Int),
                  pos.y * (CHUNK_DEPTH : Int) + (y : Int),
                  pos.z * (CHUNK_HEIGHT : Int) + (z : Int)⟩) with
            | .ok ch2 => ch2
            | .error _ => ch) ch) ch) ch2
      = { ch2 with blocks := ((List.range 4).foldl (fun bl z =>
          (List.range 32).foldl (fun bl y =>
            (List.range 32).foldl (fun bl x =>
              bl.set (z * 1024 + y * 32 + x)
                (m.block_at (world_of_index pos (z * 1024 + y * 32 + x)))) bl) bl)
          ch2.blocks) } := by
    apply chunk_fold_blocks
    intro ch2 z hz
    exact hyfold z (by simpa [CHUNK_HEIGHT] using List.mem_range.mp hz) ch2
  have hylevel : ∀ z : Nat, z < 4 → ∀ (bl : List BlockId) (j : Nat),
      (((List.range 32).foldl (fun bl y =>
          (List.range 32).foldl (fun bl x =>
            bl.set (z * 1024 + y * 32 + x)
              (m.block_at (world_of_index pos (z * 1024 + y * 32 + x)))) bl) bl).length
        = bl.length)
      ∧ (((List.range 32).foldl (fun bl y =>
          (List.range 32).foldl (fun bl x =>
            bl.set (z * 1024 + y * 32 + x)
              (m.block_at (world_of_index pos (z * 1024 + y * 32 + x)))) bl) bl).getD j 0
        = if z * 1024 ≤ j ∧ j < z * 1024 + 1024 ∧ j < bl.length
          then m.block_at (world_of_index pos j) else bl.getD j 0) := by
    intro z hz bl j
    have happ := fold_segments 32 32 (z * 1024) (by norm_num)
      (fun bl y => (List.range 32).foldl (fun bl x =>
        bl.set (z * 1024 + y * 32 + x)
          (m.block_at (world_of_index pos (z * 1024 + y * 32 + x)))) bl)
      (fun _ j => m.block_at (world_of_index pos j))
      (fun bl y _ => (seg_fold_spec 32 (z * 1024 + y * 32)
        (fun i => m.block_at (world_of_index pos (z * 1024 + y * 32 + i))) bl).1)
      ?_ bl
    · refine ⟨happ.1, ?_⟩
      rw [happ.2 j]
    · intro bl2 y j2 hy
      rw [(seg_fold_spec 32 (z * 1024 + y * 32)
        (fun i => m.block_at (world_of_index pos (z * 1024 + y * 32 + i))) bl2).2 j2]
      by_cases hc : z * 1024 + 32 * y ≤ j2 ∧ j2 < z * 1024 + 32 * y + 32 ∧ j2 < bl2.length
      · rw [if_pos (show z * 1024 + y * 32 ≤ j2 ∧ j2 < z * 1024 + y * 32 + 32 ∧
            j2 < bl2.length by omega), if_pos hc]
        have harg : z * 1024 + y * 32 + (j2 - (z * 1024 + y * 32)) = j2 := by omega
        rw [harg]
      · rw [if_neg (show ¬ (z * 1024 + y * 32 ≤ j2 ∧ j2 < z * 1024 + y * 32 + 32 ∧
            j2 < bl2.length) by omega), if_neg hc]
  have hzlevel : ∀ (bl : List BlockId),
      (((List.range 4).foldl (fun bl z =>
          (List.range 32).foldl (fun bl y =>
            (List.range 32).foldl (fun bl x =>
              bl.set (z * 1024 + y * 32 + x)
                (m.block_at (world_of_index pos (z * 1024 + y * 32 + x)))) bl) bl) bl).length
        = bl.length)
      ∧ ∀ j : Nat,
        (((List.range 4).foldl (fun bl z =>
          (List.range 32).foldl (fun bl y =>
            (List.range 32).foldl (fun bl x =>
              bl.set (z * 1024 + y * 32 + x)
                (m.block_at (world_of_index pos (z * 1024 + y * 32 + x)))) bl) bl) bl).getD j 0
        = if j < 4096 ∧ j < bl.length
          then m.block_at (world_of_index pos j) else bl.getD j 0) := by
    intro bl
    have happ := fold_segments 4 1024 0 (by norm_num)
      (fun bl z => (List.range 32).foldl (fun bl y =>
        (List.range 32).foldl (fun bl x =>
          bl.set (z * 1024 + y * 32 + x)
            (m.block_at (world_of_index pos (z * 1024 + y * 32 + x)))) bl) bl)
      (fun _ j => m.block_at (world_of_index pos j))
      (fun bl2 t ht => (hylevel t ht bl2 0).1)
      ?_ bl
    · refine ⟨happ.1, fun j => ?_⟩
      rw [happ.2 j]
      by_cases hc : j < 4096 ∧ j < bl.length
      · rw [if_pos (by omega), if_pos hc]
      · rw [if_neg (by omega), if_neg hc]
    · intro bl2 z j2 hz
      rw [(hylevel z hz bl2 j2).2]
      by_cases hc : 0 + 1024 * z ≤ j2 ∧ j2 < 0 + 1024 * z + 1024 ∧ j2 < bl2.length
      · rw [if_pos (by omega), if_pos hc]
      · rw [if_neg (by omega), if_neg hc]
  simp only [DeterministicMap.populate_chunk]
  simp only [hzfold]
  obtain ⟨hlen0, hget0⟩ := hzlevel ch.blocks
  exact ⟨trivial, hlen0, hget0⟩

theorem populate_chunk_get_block (m : DeterministicMap) (ch : Chunk)
    (pos : ChunkPosition) (coord : LocalBlockCoord) (idx : Nat)
    (hlen : ch.blocks.length = CHUNK_BLOCKS)
    (hidx : Chunk.block_index coord = .ok idx) :
    (m.populate_chunk ch pos).get_block coord
      = .ok (m.block_at ⟨pos.x * 32 + (coord.x : Int), pos.y * 32 + (coord.y : Int),
          pos.z * 4 + (coord.z : Int)⟩) := by
  obtain ⟨hx, hy, hz, hidxeq, hidxlt⟩ := block_index_ok hidx
  have hlen' : ch.blocks.length = 4096 := by
    simpa [CHUNK_BLOCKS, CHUNK_WIDTH, CHUNK_DEPTH, CHUNK_HEIGHT] using hlen
  obtain ⟨hposi, hlen2, hget⟩ := populate_chunk_spec m ch pos
  simp only [Chunk.get_block, hidx]
  rw [hget idx, if_pos (by omega)]
  have hcoord : world_of_index pos idx
      = ⟨pos.x * 32 + (coord.x : Int), pos.y * 32 + (coord.y : Int),
         pos.z * 4 + (coord.z : Int)⟩ := by
    unfold world_of_index
    have e1 : idx % 32 = coord.x := by omega
    have e2 : idx / 32 % 32 = coord.y := by omega
    have e3 : idx / 1024 = coord.z := by omega
    rw [e1, e2, e3]
  rw [hcoord]

/-- C3: for every seed and chunk position, the chunk produced by
populate_chunk (and by chunk_for_position) holds at every local coordinate
exactly the block id that block_at returns for the corresponding absolute
world coordinate. -/
theorem C3_chunk_generation_matches_block_at :
    (∀ (m : DeterministicMap) (ch : Chunk) (pos : ChunkPosition)
      (coord : LocalBlockCoord) (idx : Nat),
      ch.blocks.length = CHUNK_BLOCKS →
      Chunk.block_index coord = .ok idx →
      (m.populate_chunk ch pos).get_block coord
        = .ok (m.block_at ⟨pos.x * 32 + (coord.x : Int), pos.y * 32 + (coord.y : Int),
            pos.z * 4 + (coord.z : Int)⟩))
    ∧ (∀ (m : DeterministicMap) (pos : ChunkPosition)
      (coord : LocalBlockCoord) (idx : Nat),
      Chunk.block_index coord = .ok idx →
      (m.chunk_for_position pos).get_block coord
        = .ok (m.block_at ⟨pos.x * 32 + (coord.x : Int), pos.y * 32 + (coord.y : Int),
            pos.z * 4 + (coord.z : Int)⟩)) := by
  constructor
  · intro m ch pos coord idx hlen hidx
    exact populate_chunk_get_block m ch pos coord idx hlen hidx
  · intro m pos coord idx hidx
    have hlen : (Chunk.new pos AIR).blocks.length = CHUNK_BLOCKS := by
      simp [Chunk.new]
    exact populate_chunk_get_block m (Chunk.new pos AIR) pos coord idx hlen hidx

/-! ## chunk_cache.rs: world coordinate decomposition (C7) -/

/-- Rust integer division truncates toward zero (Int.tdiv / Int.tmod); the
source adjusts the quotient downward when the remainder's sign differs from
the divisor's. -/
def div_floor (a b : Int) : Int :=
  let d := a.tdiv b
  let r := a.tmod b
  if r ≠ 0 ∧ ¬ ((r < 0) ↔ (b < 0)) then d - 1 else d

theorem tmod_neg_left (a b : Int) : (-a).tmod b = -(a.tmod b) := by
  rw [Int.tmod_def, Int.tmod_def, Int.neg_tdiv]
  ring

theorem tmod_bounds (a : Int) {b : Int} (hb : 0 < b) :
    -b < a.tmod b ∧ a.tmod b < b := by
  constructor
  · rcases le_or_lt 0 a with ha | ha
    · have := Int.tmod_nonneg b ha
      omega
    · have h1 : (-a).tmod b < b := Int.tmod_lt_of_pos (-a) hb
      rw [tmod_neg_left] at h1
      omega
  · exact Int.tmod_lt_of_pos a hb

theorem div_floor_spec (a : Int) {b : Int} (hb : 0 < b) :
    b * div_floor a b ≤ a ∧ a < b * (div_floor a b + 1) := by
  have hkey : b * a.tdiv b + a.tmod b = a := Int.tdiv_add_tmod a b
  obtain ⟨hlo, hhi⟩ := tmod_bounds a hb
  unfold div_floor
  by_cases hcond : a.tmod b ≠ 0 ∧ ¬ ((a.tmod b < 0) ↔ (b < 0))
  · rw [if_pos hcond]
    obtain ⟨hne, hsign⟩ := hcond
    have hrneg : a.tmod b < 0 := by
      by_contra hpos
      exact hsign (by constructor <;> intro h <;> omega)
    constructor
    · have : b * (a.tdiv b - 1) = b * a.tdiv b - b := by ring
      rw [this]
      linarith
    · have : b * (a.tdiv b - 1 + 1) = b * a.tdiv b := by ring
      rw [this]
      linarith
  · rw [if_neg hcond]
    have hrnonneg : 0 ≤ a.tmod b := by
      by_cases hz : a.tmod b = 0
      · omega
      · by_contra hneg
        exact hcond ⟨hz, fun hiff => absurd (hiff.mp (by omega)) (by omega)⟩
    constructor
    · linarith
    · have : b * (a.tdiv b + 1) = b * a.tdiv b + b := by ring
      rw [this]
      linarith

theorem div_floor_eq_fdiv (a : Int) {b : Int} (hb : 0 < b) :
    div_floor a b = a.fdiv b := by
  have h1 : a.fmod b + b * a.fdiv b = a := Int.fmod_add_fdiv a b
  have h2 : 0 ≤ a.fmod b := Int.fmod_nonneg' a hb
  have h3 : a.fmod b < b := Int.fmod_lt_of_pos a hb
  obtain ⟨s1, s2⟩ := div_floor_spec a hb
  by_contra hne
  rcases lt_or_gt_of_ne hne with h | h
  · have hstep : div_floor a b + 1 ≤ a.fdiv b := h
    have : b * (div_floor a b + 1) ≤ b * a.fdiv b :=
      Int.mul_le_mul_of_nonneg_left hstep (le_of_lt hb)
    linarith
  · have hstep : a.fdiv b + 1 ≤ div_floor a b := h
    have hmul : b * (a.fdiv b + 1) ≤ b * div_floor a b :=
      Int.mul_le_mul_of_nonneg_left hstep (le_of_lt hb)
    have : b * (a.fdiv b + 1) = b * a.fdiv b + b := by ring
    linarith

/-- Decomposition of a world coordinate into chunk and local coordinates.
The local components are nonnegative (the quotient is floored), so the Rust
`as usize` cast is the exact value, modelled with Int.toNat. -/
def chunk_and_local_for_world_coord (coord : WorldCoord) :
    ChunkPosition × LocalBlockCoord :=
  let chunk_x := div_floor coord.x (CHUNK_WIDTH : Int)
  let chunk_y := div_floor coord.y (CHUNK_DEPTH : Int)
  let chunk_z := div_floor coord.z (CHUNK_HEIGHT : Int)
  let local_x := (coord.x - chunk_x * (CHUNK_WIDTH : Int)).toNat
  let local_y := (coord.y - chunk_y * (CHUNK_DEPTH : Int)).toNat
  let local_z := (coord.z - chunk_z * (CHUNK_HEIGHT : Int)).toNat
  (⟨chunk_x, chunk_y, chunk_z⟩, ⟨local_x, local_y, local_z⟩)

theorem chunk_and_local_valid (coord : WorldCoord) :
    (chunk_and_local_for_world_coord coord).2.x < 32
    ∧ (chunk_and_local_for_world_coord coord).2.y < 32
    ∧ (chunk_and_local_for_world_coord coord).2.z < 4
    ∧ coord.x = 32 * (chunk_and_local_for_world_coord coord).1.x
        + ((chunk_and_local_for_world_coord coord).2.x : Int)
    ∧ coord.y = 32 * (chunk_and_local_for_world_coord coord).1.y
        + ((chunk_and_local_for_world_coord coord).2.y : Int)
    ∧ coord.z = 4 * (chunk_and_local_for_world_coord coord).1.z
        + ((chunk_and_local_for_world_coord coord).2.z : Int) := by
  obtain ⟨hx1, hx2⟩ := div_floor_spec coord.x (show (0:Int) < (CHUNK_WIDTH : Int) by norm_num [CHUNK_WIDTH])
  obtain ⟨hy1, hy2⟩ := div_floor_spec coord.y (show (0:Int) < (CHUNK_DEPTH : Int) by norm_num [CHUNK_DEPTH])
  obtain ⟨hz1, hz2⟩ := div_floor_spec coord.z (show (0:Int) < (CHUNK_HEIGHT : Int) by norm_num [CHUNK_HEIGHT])
  simp only [chunk_and_local_for_world_coord]
  norm_num [CHUNK_WIDTH, CHUNK_DEPTH, CHUNK_HEIGHT] at hx1 hx2 hy1 hy2 hz1 hz2 ⊢
  omega

theorem chunk_and_local_inj {c1 c2 : WorldCoord}
    (h : chunk_and_local_for_world_coord c1 = chunk_and_local_for_world_coord c2) :
    c1 = c2 := by
  obtain ⟨_, _, _, e1x, e1y, e1z⟩ := chunk_and_local_valid c1
  obtain ⟨_, _, _, e2x, e2y, e2z⟩ := chunk_and_local_valid c2
  rw [h] at e1x e1y e1z
  cases c1; cases c2
  simp only [WorldCoord.mk.injEq]
  simp only at e1x e1y e1z e2x e2y e2z
  omega

/-- C7: world-to-chunk decomposition floors toward negative infinity on each
axis (div_floor is mathematical floor division for positive divisors), and in
particular (-1,-1,-1) decomposes to chunk (-1,-1,-1) with local coordinate
(width-1, depth-1, height-1) = (31, 31, 3). -/
theorem C7_floor_decomposition :
    (∀ a b : Int, 0 < b → div_floor a b = a.fdiv b)
    ∧ (∀ coord : WorldCoord,
        (chunk_and_local_for_world_coord coord).1
          = ⟨coord.x.fdiv 32, coord.y.fdiv 32, coord.z.fdiv 4⟩)
    ∧ chunk_and_local_for_world_coord ⟨-1, -1, -1⟩
        = (⟨-1, -1, -1⟩, ⟨31, 31, 3⟩) := by
  refine ⟨fun a b hb => div_floor_eq_fdiv a hb, fun coord => ?_, by decide⟩
  simp only [chunk_and_local_for_world_coord]
  have e1 := div_floor_eq_fdiv coord.x (show (0:Int) < (CHUNK_WIDTH : Int) by norm_num [CHUNK_WIDTH])
  have e2 := div_floor_eq_fdiv coord.y (show (0:Int) < (CHUNK_DEPTH : Int) by norm_num [CHUNK_DEPTH])
  have e3 := div_floor_eq_fdiv coord.z (show (0:Int) < (CHUNK_HEIGHT : Int) by norm_num [CHUNK_HEIGHT])
  norm_num [CHUNK_WIDTH, CHUNK_DEPTH, CHUNK_HEIGHT] at e1 e2 e3 ⊢
  rw [e1, e2, e3]
  exact ⟨rfl, rfl, rfl⟩

/-! ## chunk_cache.rs: the cache itself -/

/-- HashMap::insert on the cache's backing map: the updated map answers the
new entry at the inserted key and is unchanged elsewhere. -/
def cache_insert (chunks : ChunkPosition → Option CachedChunk)
    (pos : ChunkPosition) (c : CachedChunk) : ChunkPosition → Option CachedChunk :=
  fun p => if p = pos then some c else chunks p

structure ChunkCache where
  chunks : ChunkPosition → Option CachedChunk
  reusable_chunk : Chunk
  last_save_ms : Option Float

def ChunkCache.new : ChunkCache :=
  { chunks := fun _ => none
    reusable_chunk := Chunk.new ⟨0, 0, 0⟩ AIR
    last_save_ms := none }

def ChunkCache.has_chunk (cache : ChunkCache) (position : ChunkPosition) : Bool :=
  (cache.chunks position).isSome

/-- Decompression into a dense block list: one get_block per local
coordinate in z-major, then y, then x order, `unwrap_or(AIR)`. -/
def chunkblocks_from_cached (cached : CachedChunk) : List BlockId :=
  (List.range CHUNK_HEIGHT).flatMap (fun z =>
    (List.range CHUNK_DEPTH).flatMap (fun y =>
      (List.range CHUNK_WIDTH).map (fun x =>
        match cached.get_block ⟨x, y, z⟩ with
        | .ok b => b
        | .error _ => AIR)))

/-- Rehydration to an editable Chunk; apply_block_save validates the length
(always 4096 here) before replacing the blocks of a fresh AIR chunk at the
cached position. -/
def chunk_from_cached (cached : CachedChunk) : Except ChunkError Chunk :=
  let blocks := chunkblocks_from_cached cached
  if blocks.length ≠ CHUNK_BLOCKS then .error (.InvalidBlockCount blocks.length)
  else .ok { position := cached.position, blocks := blocks }

def ChunkCache.block_at_world (cache : ChunkCache) (coord : WorldCoord) :
    Option BlockId :=
  match cache.chunks (chunk_and_local_for_world_coord coord).1 with
  | none => none
  | some chunk =>
    match chunk.get_block (chunk_and_local_for_world_coord coord).2 with
    | .ok b => some b
    | .error _ => none

/-- Mutation of one voxel.  Rust takes `&mut self`; every early `return Err`
leaves the receiver untouched, so the model returns the (possibly unchanged)
cache next to the Result. -/
def ChunkCache.set_block (cache : ChunkCache) (coord : WorldCoord)
    (block : BlockId) : ChunkCache × Except ChunkError Unit :=
  match cache.chunks (chunk_and_local_for_world_coord coord).1 with
  | none => (cache, .error .OutOfBounds)
  | some existing =>
    match chunk_from_cached existing with
    | .error e => (cache, .error e)
    | .ok chunk =>
      match chunk.set_block (chunk_and_local_for_world_coord coord).2 block with
      | .error e => (cache, .error e)
      | .ok chunk2 =>
        let updated := CachedChunk.from_chunk_with_changed chunk2 true
        ({ cache with chunks := cache_insert cache.chunks
                                  (chunk_and_local_for_world_coord coord).1
                                  updated }, .ok ())

def ChunkCache.populate_chunk_at (cache : ChunkCache)
    (generator : DeterministicMap) (position : ChunkPosition) : ChunkCache :=
  let populated := generator.populate_chunk cache.reusable_chunk position
  { cache with
    reusable_chunk := populated
    chunks := cache_insert cache.chunks position (CachedChunk.from_chunk populated) }

/-- C5: writing through set_block at a world coordinate whose chunk is not in
the cache fails with the chunk-not-loaded error (ChunkError::OutOfBounds in
the source) and returns the cache completely unchanged; in particular no
chunk is generated. -/
theorem C5_set_block_absent_chunk_fails (cache : ChunkCache) (coord : WorldCoord)
    (block : BlockId)
    (habsent : cache.chunks (chunk_and_local_for_world_coord coord).1 = none) :
    cache.set_block coord block = (cache, .error ChunkError.OutOfBounds) := by
  unfold ChunkCache.set_block
  rw [habsent]

theorem flatMap_congr_mem {α β : Type} {l : List α} {f g : α → List β}
    (h : ∀ a ∈ l, f a = g a) : l.flatMap f = l.flatMap g := by
  induction l with
  | nil => rfl
  | cons a l ih =>
    simp only [List.flatMap_cons]
    rw [h a (List.mem_cons_self _ _), ih (fun x hx => h x (List.mem_cons_of_mem _ hx))]

theorem flatMap_range_map (m n : Nat) (h : Nat → BlockId) :
    (List.range n).flatMap (fun j => (List.range m).map (fun i => h (m * j + i)))
      = (List.range (m * n)).map h := by
  induction n with
  | zero => simp
  | succ n ih =>
    rw [List.range_succ, List.flatMap_append, ih,
      show m * (n + 1) = m * n + m by ring, List.range_add, List.map_append]
    congr 1
    simp only [List.flatMap_cons, List.flatMap_nil, List.append_nil, List.map_map]
    rfl

theorem from_chunk_with_changed_get_block (c : Chunk) (fl : Bool)
    (coord : LocalBlockCoord) :
    (CachedChunk.from_chunk_with_changed c fl).get_block coord
      = (CachedChunk.from_chunk c).get_block coord := rfl

theorem block_index_of_valid (l : LocalBlockCoord) (hx : l.x < 32) (hy : l.y < 32)
    (hz : l.z < 4) :
    Chunk.block_index l = .ok (l.x + l.y * 32 + l.z * 1024) := by
  unfold Chunk.block_index
  simp only [CHUNK_WIDTH, CHUNK_DEPTH, CHUNK_HEIGHT]
  rw [if_neg (by omega)]

theorem chunkblocks_from_cached_eq (cached : CachedChunk) :
    chunkblocks_from_cached cached
      = (List.range 4096).map (fun j =>
          match cached.get_block ⟨j % 32, j / 32 % 32, j / 1024⟩ with
          | .ok b => b
          | .error _ => AIR) := by
  unfold chunkblocks_from_cached
  simp only [CHUNK_WIDTH, CHUNK_DEPTH, CHUNK_HEIGHT]
  have hstep1 : ∀ z : Nat, z ∈ List.range 4 →
      (List.range 32).flatMap (fun y => (List.range 32).map (fun x =>
        match cached.get_block ⟨x, y, z⟩ with
        | .ok b => b
        | .error _ => AIR))
      = (List.range 1024).map (fun r =>
          match cached.get_block ⟨r % 32, r / 32, z⟩ with
          | .ok b => b
          | .error _ => AIR) := by
    intro z _
    rw [← flatMap_range_map 32 32 (fun r =>
      match cached.get_block ⟨r % 32, r / 32, z⟩ with
      | .ok b => b
      | .error _ => AIR)]
    apply flatMap_congr_mem
    intro y hy
    apply List.map_congr_left
    intro x hx
    have hx32 : x < 32 := List.mem_range.mp hx
    have hy32 : y < 32 := List.mem_range.mp hy
    have e1 : (32 * y + x) % 32 = x := by omega
    have e2 : (32 * y + x) / 32 = y := by omega
    rw [e1, e2]
  rw [flatMap_congr_mem hstep1]
  rw [← flatMap_range_map 1024 4 (fun j =>
    match cached.get_block ⟨j % 32, j / 32 % 32, j / 1024⟩ with
    | .ok b => b
    | .error _ => AIR)]
  apply flatMap_congr_mem
  intro z hz
  apply List.map_congr_left
  intro r hr
  have hr1024 : r < 1024 := List.mem_range.mp hr
  have hz4 : z < 4 := List.mem_range.mp hz
  have e1 : (1024 * z + r) % 32 = r % 32 := by omega
  have e2 : (1024 * z + r) / 32 % 32 = r / 32 := by omega
  have e3 : (1024 * z + r) / 1024 = z := by omega
  rw [e1, e2, e3]

theorem chunkblocks_length (cached : CachedChunk) :
    (chunkblocks_from_cached cached).length = 4096 := by
  have h := congrArg List.length (chunkblocks_from_cached_eq cached)
  rw [List.length_map, List.length_range] at h
  exact h

theorem chunkblocks_getD (cached : CachedChunk) (j : Nat) (hj : j < 4096) :
    (chunkblocks_from_cached cached).getD j 0
      = match cached.get_block ⟨j % 32, j / 32 % 32, j / 1024⟩ with
        | .ok b => b
        | .error _ => AIR := by
  have hjlen : j < ((List.range 4096).map (fun r =>
      match cached.get_block ⟨r % 32, r / 32 % 32, r / 1024⟩ with
      | .ok b => b
      | .error _ => AIR)).length := by
    rw [List.length_map, List.length_range]
    exact hj
  have h := congrArg (fun l : List BlockId => l.getD j 0) (chunkblocks_from_cached_eq cached)
  simp only at h
  rw [List.getD_eq_getElem _ _ hjlen, List.getElem_map, List.getElem_range] at h
  exact h

theorem chunkblocks_of_from_chunk (c0 : Chunk) (fl : Bool)
    (hlen : c0.blocks.length = CHUNK_BLOCKS) :
    chunkblocks_from_cached (CachedChunk.from_chunk_with_changed c0 fl)
      = c0.blocks := by
  have hlen' : c0.blocks.length = 4096 := by
    simpa [CHUNK_BLOCKS, CHUNK_WIDTH, CHUNK_DEPTH, CHUNK_HEIGHT] using hlen
  apply List.ext_getElem (by rw [chunkblocks_length, hlen'])
  intro j h1 h2
  rw [← List.getD_eq_getElem _ 0 h1, ← List.getD_eq_getElem _ 0 h2]
  have hj : j < 4096 := by
    have := chunkblocks_length (CachedChunk.from_chunk_with_changed c0 fl)
    omega
  rw [chunkblocks_getD _ j hj, from_chunk_with_changed_get_block,
    from_chunk_get_block_eq c0 hlen ⟨j % 32, j / 32 % 32, j / 1024⟩]
  have hidx := block_index_of_valid ⟨j % 32, j / 32 % 32, j / 1024⟩
    (Nat.mod_lt _ (by norm_num)) (Nat.mod_lt _ (by norm_num))
    ((Nat.div_lt_iff_lt_mul (by norm_num)).mpr (by omega))
  simp only [Chunk.get_block, hidx]
  have hj' : j % 32 + j / 32 % 32 * 32 + j / 1024 * 1024 = j := by omega
  rw [hj']

theorem chunk_from_cached_of_from_chunk (c0 : Chunk) (fl : Bool)
    (hlen : c0.blocks.length = CHUNK_BLOCKS) :
    chunk_from_cached (CachedChunk.from_chunk_with_changed c0 fl) = .ok c0 := by
  unfold chunk_from_cached
  rw [chunkblocks_of_from_chunk c0 fl hlen]
  rw [if_neg (by rw [hlen]; simp)]
  rfl

theorem chunk_set_block_eq (c : Chunk) (l : LocalBlockCoord) (v : BlockId)
    (hx : l.x < 32) (hy : l.y < 32) (hz : l.z < 4) :
    c.set_block l v
      = .ok { c with blocks := c.blocks.set (l.x + l.y * 32 + l.z * 1024) v } := by
  unfold Chunk.set_block
  rw [block_index_of_valid l hx hy hz]

theorem from_chunk_get_block_ok (c : Chunk) (fl : Bool) (l : LocalBlockCoord)
    (hlen : c.blocks.length = CHUNK_BLOCKS) (hx : l.x < 32) (hy : l.y < 32)
    (hz : l.z < 4) :
    (CachedChunk.from_chunk_with_changed c fl).get_block l
      = .ok (c.blocks.getD (l.x + l.y * 32 + l.z * 1024) 0) := by
  rw [from_chunk_with_changed_get_block, from_chunk_get_block_eq c hlen l]
  simp only [Chunk.get_block, block_index_of_valid l hx hy hz]

theorem block_at_world_eval (cache : ChunkCache) (coord : WorldCoord) (c : Chunk)
    (fl : Bool) (hlen : c.blocks.length = CHUNK_BLOCKS)
    (hpresent : cache.chunks (chunk_and_local_for_world_coord coord).1
      = some (CachedChunk.from_chunk_with_changed c fl)) :
    cache.block_at_world coord
      = some (c.blocks.getD ((chunk_and_local_for_world_coord coord).2.x
          + (chunk_and_local_for_world_coord coord).2.y * 32
          + (chunk_and_local_for_world_coord coord).2.z * 1024) 0) := by
  obtain ⟨hx, hy, hz, _, _, _⟩ := chunk_and_local_valid coord
  unfold ChunkCache.block_at_world
  simp only [hpresent, from_chunk_get_block_ok c fl _ hlen hx hy hz]

/-- The flat index inside the compressed chunk for a world coordinate:
x + y * 32 + z * 1024 at the local part of its decomposition. -/
def local_index (coord : WorldCoord) : Nat :=
  (chunk_and_local_for_world_coord coord).2.x + (chunk_and_local_for_world_coord coord).2.y * 32 + (chunk_and_local_for_world_coord coord).2.z * 1024

/-- The chunk produced by Chunk::set_block at a world coordinate's local part. -/
def updated_chunk (c0 : Chunk) (coord : WorldCoord) (block : BlockId) : Chunk :=
  { c0 with blocks := c0.blocks.set (local_index coord) block }

/-- C6: writing one voxel through set_block into a cached (compressed) chunk
succeeds, the written world coordinate then reads back as the new block,
every other world coordinate reads back unchanged, the rewritten cache entry
carries changed = true, and every other cache entry is untouched.  The
present entry is assumed to be a compressed chunk (every entry the program
stores is produced by from_chunk or from_chunk_with_changed). -/
theorem C6_set_block_updates_one_voxel (cc : ChunkCache) (coord : WorldCoord)
    (block : BlockId) (c0 : Chunk) (fl : Bool)
    (hlen : c0.blocks.length = CHUNK_BLOCKS)
    (hpresent : cc.chunks (chunk_and_local_for_world_coord coord).1
      = some (CachedChunk.from_chunk_with_changed c0 fl)) :
    (cc.set_block coord block).2 = .ok ()
    ∧ (cc.set_block coord block).1.block_at_world coord = some block
    ∧ (∀ coord2 : WorldCoord, coord2 ≠ coord →
        (cc.set_block coord block).1.block_at_world coord2
          = cc.block_at_world coord2)
    ∧ (∃ updated : CachedChunk,
        (cc.set_block coord block).1.chunks
            (chunk_and_local_for_world_coord coord).1 = some updated
          ∧ updated.changed = true)
    ∧ (∀ p : ChunkPosition, p ≠ (chunk_and_local_for_world_coord coord).1 →
        (cc.set_block coord block).1.chunks p = cc.chunks p) := by
  obtain ⟨hx, hy, hz, hrx, hry, hrz⟩ := chunk_and_local_valid coord
  have hlen' : c0.blocks.length = 4096 := by
    simpa [CHUNK_BLOCKS, CHUNK_WIDTH, CHUNK_DEPTH, CHUNK_HEIGHT] using hlen
  have hidxlt : (chunk_and_local_for_world_coord coord).2.x
      + (chunk_and_local_for_world_coord coord).2.y * 32
      + (chunk_and_local_for_world_coord coord).2.z * 1024 < 4096 := by omega
  have hsb : cc.set_block coord block
      = ({ cc with chunks := cache_insert cc.chunks (chunk_and_local_for_world_coord coord).1 (CachedChunk.from_chunk_with_changed (updated_chunk c0 coord block) true) }, .ok ()) := by
    unfold ChunkCache.set_block
    simp only [hpresent, chunk_from_cached_of_from_chunk c0 fl hlen,
      chunk_set_block_eq c0 (chunk_and_local_for_world_coord coord).2 block hx hy hz,
      updated_chunk, local_index]
  have hlen2 : (updated_chunk c0 coord block).blocks.length = CHUNK_BLOCKS := by
    simp only [updated_chunk, List.length_set]
    exact hlen
  refine ⟨by rw [hsb], ?_, ?_, ?_, ?_⟩
  · rw [hsb]
    rw [block_at_world_eval _ coord _ true hlen2 (by simp [cache_insert])]
    simp only [updated_chunk, local_index]
    rw [getD_set_zero, if_pos ⟨rfl, by omega⟩]
  · intro coord2 hne
    obtain ⟨hx2, hy2, hz2, hrx2, hry2, hrz2⟩ := chunk_and_local_valid coord2
    by_cases hsame : (chunk_and_local_for_world_coord coord2).1
        = (chunk_and_local_for_world_coord coord).1
    · have hlocne : (chunk_and_local_for_world_coord coord2).2
          ≠ (chunk_and_local_for_world_coord coord).2 := by
        intro hleq
        apply hne
        apply chunk_and_local_inj
        exact Prod.ext hsame hleq
      have hidxne : (chunk_and_local_for_world_coord coord2).2.x
          + (chunk_and_local_for_world_coord coord2).2.y * 32
          + (chunk_and_local_for_world_coord coord2).2.z * 1024
          ≠ (chunk_and_local_for_world_coord coord).2.x
          + (chunk_and_local_for_world_coord coord).2.y * 32
          + (chunk_and_local_for_world_coord coord).2.z * 1024 := by
        intro heq
        apply hlocne
        have e1 : (chunk_and_local_for_world_coord coord2).2.x
            = (chunk_and_local_for_world_coord coord).2.x := by omega
        have e2 : (chunk_and_local_for_world_coord coord2).2.y
            = (chunk_and_local_for_world_coord coord).2.y := by omega
        have e3 : (chunk_and_local_for_world_coord coord2).2.z
            = (chunk_and_local_for_world_coord coord).2.z := by omega
        cases hc2 : (chunk_and_local_for_world_coord coord2).2
        cases hc : (chunk_and_local_for_world_coord coord).2
        simp only [LocalBlockCoord.mk.injEq]
        rw [hc2] at e1 e2 e3
        rw [hc] at e1 e2 e3
        exact ⟨e1, e2, e3⟩
      rw [hsb]
      rw [block_at_world_eval _ coord2 _ true hlen2 (by simp [cache_insert, hsame])]
      rw [block_at_world_eval cc coord2 c0 fl hlen (by rw [hsame]; exact hpresent)]
      simp only [updated_chunk, local_index]
      rw [getD_set_zero, if_neg (by omega)]
    · rw [hsb]
      unfold ChunkCache.block_at_world
      simp only [cache_insert, if_neg hsame]
  · refine ⟨CachedChunk.from_chunk_with_changed (updated_chunk c0 coord block) true,
      ?_, rfl⟩
    rw [hsb]
    simp [cache_insert]
  · intro p hp
    rw [hsb]
    simp only [cache_insert, if_neg hp]

/-- C10: populate_chunk_at unconditionally overwrites the cache entry at the
target position (no hypothesis on what, if anything, the cache stored there)
with the compression of the freshly generated chunk, whose per-voxel content
is block_at of the corresponding world coordinate; the new entry's changed
flag is false, and every other entry is untouched.  So regenerating a chunk
previously edited via set_block discards the edits and clears the marker. -/
theorem C10_populate_chunk_at_overwrites (cache : ChunkCache)
    (m : DeterministicMap) (pos : ChunkPosition)
    (hlen : cache.reusable_chunk.blocks.length = CHUNK_BLOCKS) :
    (cache.populate_chunk_at m pos).chunks pos
      = some (CachedChunk.from_chunk (m.populate_chunk cache.reusable_chunk pos))
    ∧ (CachedChunk.from_chunk (m.populate_chunk cache.reusable_chunk pos)).changed
      = false
    ∧ (∀ (coord : LocalBlockCoord) (idx : Nat), Chunk.block_index coord = .ok idx →
        (CachedChunk.from_chunk (m.populate_chunk cache.reusable_chunk pos)).get_block
            coord
          = .ok (m.block_at ⟨pos.x * 32 + (coord.x : Int), pos.y * 32 + (coord.y : Int),
              pos.z * 4 + (coord.z : Int)⟩))
    ∧ (∀ p : ChunkPosition, p ≠ pos →
        (cache.populate_chunk_at m pos).chunks p = cache.chunks p) := by
  obtain ⟨hposi, hlenpop, hget⟩ := populate_chunk_spec m cache.reusable_chunk pos
  have hlenpop' : (m.populate_chunk cache.reusable_chunk pos).blocks.length
      = CHUNK_BLOCKS := by rw [hlenpop, hlen]
  refine ⟨?_, rfl, ?_, ?_⟩
  · unfold ChunkCache.populate_chunk_at
    simp [cache_insert]
  · intro coord idx hidx
    rw [from_chunk_get_block_eq _ hlenpop' coord]
    exact populate_chunk_get_block m cache.reusable_chunk pos coord idx hlen hidx
  · intro p hp
    unfold ChunkCache.populate_chunk_at
    simp only [cache_insert, if_neg hp]

/-! ## linecast.rs: supercover Bresenham line query -/

/-- linecast.rs is_solid: `block.map_or(false, |b| b != AIR)`. -/
def is_solid (block : Option BlockId) : Bool :=
  match block with
  | some b => decide (b ≠ AIR)
  | none => false

/-- i32 `saturating_mul(2)` of the Bresenham error term. -/
def sat_double (e : Int) : Int :=
  max (-2147483648) (min (e * 2) 2147483647)

/-- The loop of first_solid_supercover, fuel-indexed.  Constants: the lookup
f, the start coordinate s (excluded by the corner checks), the end point
x1 y1, the shared z level, the step signs sx sy and the absolute deltas
dx dy.  State: current x0 y0, the error term, and the first-iteration flag. -/
def first_solid_loop (f : WorldCoord → Option BlockId) (s : WorldCoord)
    (x1 y1 z sx sy dx dy : Int) :
    Nat → Int → Int → Int → Bool → Option WorldCoord
  | 0, _, _, _, _ => none
  | fuel + 1, x0, y0, err, fp =>
    if fp = false ∧ is_solid (f ⟨x0, y0, z⟩) = true then some ⟨x0, y0, z⟩
    else if x0 = x1 ∧ y0 = y1 then none
    else if sat_double err > -dy then
      if sat_double err < dx then
        if (⟨x0, y0 + sy, z⟩ : WorldCoord) ≠ s
            ∧ is_solid (f ⟨x0, y0 + sy, z⟩) = true then some ⟨x0, y0 + sy, z⟩
        else if (⟨x0 + sx, y0, z⟩ : WorldCoord) ≠ s
            ∧ is_solid (f ⟨x0 + sx, y0, z⟩) = true then some ⟨x0 + sx, y0, z⟩
        else first_solid_loop f s x1 y1 z sx sy dx dy fuel (x0 + sx) (y0 + sy)
          (err - dy + dx) false
      else first_solid_loop f s x1 y1 z sx sy dx dy fuel (x0 + sx) y0 (err - dy) false
    else if sat_double err < dx then
      first_solid_loop f s x1 y1 z sx sy dx dy fuel x0 (y0 + sy) (err + dx) false
    else first_solid_loop f s x1 y1 z sx sy dx dy fuel x0 y0 err false

/-- linecast.rs first_solid_supercover: sets up deltas, signs, the initial
error dx - dy and the first_point flag, then runs the loop (with enough fuel
for the walk from start to end plus the final break iteration). -/
def first_solid_supercover (f : WorldCoord → Option BlockId)
    (s e : WorldCoord) : Option WorldCoord :=
  first_solid_loop f s e.x e.y s.z
    (if s.x < e.x then 1 else if e.x < s.x then -1 else 0)
    (if s.y < e.y then 1 else if e.y < s.y then -1 else 0)
    |e.x - s.x| |e.y - s.y|
    ((e.x - s.x).natAbs + (e.y - s.y).natAbs + 1)
    s.x s.y (|e.x - s.x| - |e.y - s.y|) true

/-- ChunkCache::first_solid_on_line delegates to the supercover walk over
block_at_world. -/
def ChunkCache.first_solid_on_line (cache : ChunkCache) (s e : WorldCoord) :
    Option WorldCoord :=
  first_solid_supercover (fun coord => cache.block_at_world coord) s e

theorem sat_double_nonneg (e : Int) (h : 0 ≤ sat_double e) : 0 ≤ e := by
  unfold sat_double at h
  omega

theorem sat_double_nonpos (e : Int) (h : sat_double e ≤ 0) : e ≤ 0 := by
  unfold sat_double at h
  omega

theorem sign_if_cases (a b : Int) :
    (if a < b then (1 : Int) else if b < a then -1 else 0) = 1
    ∨ (if a < b then (1 : Int) else if b < a then -1 else 0) = -1
    ∨ (if a < b then (1 : Int) else if b < a then -1 else 0) = 0 := by
  split_ifs <;> simp

theorem sign_if_eq_zero (a b : Int)
    (h : (if a < b then (1 : Int) else if b < a then -1 else 0) = 0) : a = b := by
  split_ifs at h <;> omega

theorem sign_if_of_eq (a b : Int) (h : a = b) :
    (if a < b then (1 : Int) else if b < a then -1 else 0) = 0 := by
  split_ifs <;> omega

/-- The walk only depends on the lookup through is_solid. -/
theorem first_solid_loop_congr (f g : WorldCoord → Option BlockId)
    (s : WorldCoord) (x1 y1 z sx sy dx dy : Int)
    (h : ∀ c, is_solid (f c) = is_solid (g c)) :
    ∀ (fuel : Nat) (x0 y0 err : Int) (fp : Bool),
      first_solid_loop f s x1 y1 z sx sy dx dy fuel x0 y0 err fp
        = first_solid_loop g s x1 y1 z sx sy dx dy fuel x0 y0 err fp := by
  intro fuel
  induction fuel with
  | zero => intro x0 y0 err fp; rfl
  | succ n ih =>
    intro x0 y0 err fp
    simp only [first_solid_loop, h, ih]

/-- Invariant-carrying induction: the loop never answers the start
coordinate.  The unguarded return of the current cell only fires after the
first iteration, and the step phase always moves the current cell strictly
away from start (in the direction of the step signs). -/
theorem first_solid_loop_ne_start (f : WorldCoord → Option BlockId)
    (s : WorldCoord) (x1 y1 z sx sy dx dy : Int)
    (hdx : 0 ≤ dx) (hdy : 0 ≤ dy)
    (hsx : sx = 1 ∨ sx = -1 ∨ sx = 0) (hsy : sy = 1 ∨ sy = -1 ∨ sy = 0)
    (hsx0 : sx = 0 → s.x = x1 ∧ dx = 0) (hsy0 : sy = 0 → s.y = y1 ∧ dy = 0)
    (hdx0 : dx = 0 → sx = 0) (hdy0 : dy = 0 → sy = 0) :
    ∀ (fuel : Nat) (x0 y0 err : Int) (fp : Bool),
      0 ≤ sx * (x0 - s.x) → 0 ≤ sy * (y0 - s.y) →
      (sx = 0 → x0 = s.x) → (sy = 0 → y0 = s.y) →
      (fp = false → ¬(x0 = s.x ∧ y0 = s.y)) →
      (fp = true → x0 = s.x ∧ y0 = s.y ∧ err = dx - dy) →
      first_solid_loop f s x1 y1 z sx sy dx dy fuel x0 y0 err fp ≠ some s := by
  intro fuel
  induction fuel with
  | zero =>
    intro x0 y0 err fp _ _ _ _ _ _
    simp [first_solid_loop]
  | succ n ih =>
    intro x0 y0 err fp hA hB hC hD hE hF
    simp only [first_solid_loop]
    split_ifs with h1 h2 h3 h4 h5 h6
    · intro heq
      have hmk : (⟨x0, y0, z⟩ : WorldCoord) = s := by
        injection heq
      have hx0 : x0 = s.x := by rw [← hmk]
      have hy0 : y0 = s.y := by rw [← hmk]
      exact hE h1.1 ⟨hx0, hy0⟩
    · simp
    · intro heq
      apply h5.1
      injection heq
    · intro heq
      apply h6.1
      injection heq
    · have hG : ¬(dx = 0 ∧ dy = 0) := by
        rintro ⟨hdxe, hdye⟩
        exact h2 ⟨(hC (hdx0 hdxe)).trans (hsx0 (hdx0 hdxe)).1,
          (hD (hdy0 hdye)).trans (hsy0 (hdy0 hdye)).1⟩
      refine ih (x0 + sx) (y0 + sy) (err - dy + dx) false ?_ ?_ ?_ ?_ ?_ (by simp)
      · rcases hsx with h | h | h <;> subst h <;> omega
      · rcases hsy with h | h | h <;> subst h <;> omega
      · intro h0
        have := hC h0
        omega
      · intro h0
        have := hD h0
        omega
      · intro _
        rintro ⟨hex, hey⟩
        rcases hsx with h | h | h <;> rcases hsy with h' | h' | h' <;>
          subst h <;> subst h' <;>
          first
          | omega
          | exact hG ⟨(hsx0 rfl).2, (hsy0 rfl).2⟩
    · have hG : ¬(dx = 0 ∧ dy = 0) := by
        rintro ⟨hdxe, hdye⟩
        exact h2 ⟨(hC (hdx0 hdxe)).trans (hsx0 (hdx0 hdxe)).1,
          (hD (hdy0 hdye)).trans (hsy0 (hdy0 hdye)).1⟩
      refine ih (x0 + sx) y0 (err - dy) false ?_ ?_ ?_ ?_ ?_ (by simp)
      · rcases hsx with h | h | h <;> subst h <;> omega
      · exact hB
      · intro h0
        have := hC h0
        omega
      · exact hD
      · intro _
        rintro ⟨hex, hey⟩
        rcases hsx with h | h | h
        · subst h; omega
        · subst h; omega
        · obtain ⟨hsxe, hdxe⟩ := hsx0 h
          cases fp with
          | false => exact hE rfl ⟨by omega, hey⟩
          | true =>
            obtain ⟨_, _, herr⟩ := hF rfl
            have h0 : 0 ≤ sat_double err := by omega
            have hnn : 0 ≤ err := sat_double_nonneg err h0
            exact hG ⟨hdxe, by omega⟩
    · have hG : ¬(dx = 0 ∧ dy = 0) := by
        rintro ⟨hdxe, hdye⟩
        exact h2 ⟨(hC (hdx0 hdxe)).trans (hsx0 (hdx0 hdxe)).1,
          (hD (hdy0 hdye)).trans (hsy0 (hdy0 hdye)).1⟩
      refine ih x0 (y0 + sy) (err + dx) false ?_ ?_ ?_ ?_ ?_ (by simp)
      · exact hA
      · rcases hsy with h | h | h <;> subst h <;> omega
      · exact hC
      · intro h0
        have := hD h0
        omega
      · intro _
        rintro ⟨hex, hey⟩
        rcases hsy with h | h | h
        · subst h; omega
        · subst h; omega
        · obtain ⟨hsye, hdye⟩ := hsy0 h
          cases fp with
          | false => exact hE rfl ⟨hex, by omega⟩
          | true =>
            obtain ⟨_, _, herr⟩ := hF rfl
            have h0 : sat_double err ≤ 0 := by omega
            have hnp : err ≤ 0 := sat_double_nonpos err h0
            exact hG ⟨by omega, hdye⟩
    · have hG : ¬(dx = 0 ∧ dy = 0) := by
        rintro ⟨hdxe, hdye⟩
        exact h2 ⟨(hC (hdx0 hdxe)).trans (hsx0 (hdx0 hdxe)).1,
          (hD (hdy0 hdye)).trans (hsy0 (hdy0 hdye)).1⟩
      exact absurd ⟨by omega, by omega⟩ hG

/-- The supercover walk never reports the start coordinate. -/
theorem first_solid_supercover_ne_start (f : WorldCoord → Option BlockId)
    (s e : WorldCoord) : first_solid_supercover f s e ≠ some s := by
  unfold first_solid_supercover
  refine first_solid_loop_ne_start f s e.x e.y s.z _ _ _ _
    (abs_nonneg _) (abs_nonneg _) (sign_if_cases s.x e.x) (sign_if_cases s.y e.y)
    ?_ ?_ ?_ ?_ _ s.x s.y _ true (by simp) (by simp)
    (fun _ => rfl) (fun _ => rfl) (by simp) (fun _ => ⟨rfl, rfl, rfl⟩)
  · intro h0
    have h1 := sign_if_eq_zero _ _ h0
    refine ⟨h1, ?_⟩
    rw [h1]
    simp
  · intro h0
    have h1 := sign_if_eq_zero _ _ h0
    refine ⟨h1, ?_⟩
    rw [h1]
    simp
  · intro h0
    have h1 := abs_eq_zero.mp h0
    exact sign_if_of_eq _ _ (by omega)
  · intro h0
    have h1 := abs_eq_zero.mp h0
    exact sign_if_of_eq _ _ (by omega)

/-- C8: first_solid_on_line never reports the start coordinate, for every
cache and every query; and on the three concrete block layouts (quantified
over every cache realizing them through block_at_world): a single solid
block at (2,0,0) makes (0,0,0)->(4,0,0) hit (2,0,0); with no solid blocks
(-1,-1,0)->(3,2,0) reports none; a single solid block at (1,0,0) makes the
diagonal (0,0,0)->(2,2,0) hit (1,0,0) through the corner check. -/
theorem C8_line_query :
    (∀ (cache : ChunkCache) (s e : WorldCoord),
      cache.first_solid_on_line s e ≠ some s)
    ∧ (∀ cache : ChunkCache,
        (∀ c : WorldCoord, is_solid (cache.block_at_world c)
          = decide (c = (⟨2, 0, 0⟩ : WorldCoord))) →
        cache.first_solid_on_line ⟨0, 0, 0⟩ ⟨4, 0, 0⟩ = some ⟨2, 0, 0⟩)
    ∧ (∀ cache : ChunkCache,
        (∀ c : WorldCoord, is_solid (cache.block_at_world c) = false) →
        cache.first_solid_on_line ⟨-1, -1, 0⟩ ⟨3, 2, 0⟩ = none)
    ∧ (∀ cache : ChunkCache,
        (∀ c : WorldCoord, is_solid (cache.block_at_world c)
          = decide (c = (⟨1, 0, 0⟩ : WorldCoord))) →
        cache.first_solid_on_line ⟨0, 0, 0⟩ ⟨2, 2, 0⟩ = some ⟨1, 0, 0⟩) := by
  refine ⟨?_, ?_, ?_, ?_⟩
  · intro cache s e
    exact first_solid_supercover_ne_start _ s e
  · intro cache hf
    have hg : ∀ c : WorldCoord, is_solid (cache.block_at_world c)
        = is_solid ((fun c : WorldCoord =>
            if c = (⟨2, 0, 0⟩ : WorldCoord) then some STONE else none) c) := by
      intro c
      rw [hf c]
      by_cases hc : c = (⟨2, 0, 0⟩ : WorldCoord) <;>
        simp [hc, is_solid, STONE, AIR]
    unfold ChunkCache.first_solid_on_line first_solid_supercover
    rw [first_solid_loop_congr _ _ _ _ _ _ _ _ _ _ hg]
    decide
  · intro cache hf
    have hg : ∀ c : WorldCoord, is_solid (cache.block_at_world c)
        = is_solid ((fun _ : WorldCoord => (none : Option BlockId)) c) := by
      intro c
      rw [hf c]
      simp [is_solid]
    unfold ChunkCache.first_solid_on_line first_solid_supercover
    rw [first_solid_loop_congr _ _ _ _ _ _ _ _ _ _ hg]
    decide
  · intro cache hf
    have hg : ∀ c : WorldCoord, is_solid (cache.block_at_world c)
        = is_solid ((fun c : WorldCoord =>
            if c = (⟨1, 0, 0⟩ : WorldCoord) then some STONE else none) c) := by
      intro c
      rw [hf c]
      by_cases hc : c = (⟨1, 0, 0⟩ : WorldCoord) <;>
        simp [hc, is_solid, STONE, AIR]
    unfold ChunkCache.first_solid_on_line first_solid_supercover
    rw [first_solid_loop_congr _ _ _ _ _ _ _ _ _ _ hg]
    decide

/-! ## droneforge-web lib.rs: chunk-cache streaming scheduler -/

def CHUNK_CACHE_CHUNKS_PER_FRAME : Nat := 256

def PRELOAD_Z_RADIUS : Int := 5

/-- i32 saturating addition (view-level arithmetic). -/
def i32_saturating_add (a b : Int) : Int :=
  max (-2147483648) (min (a + b) 2147483647)

/-- The scheduler-relevant fields of the Game struct.  world_chunk_z_set is
kept equal to membership in world_chunk_zs (both are built once from the
same list in Game::new), so it is modelled by list membership; the HashSet
chunk_cache_queued is modelled as its membership predicate; timing fields
are omitted. -/
structure SchedulerState where
  world_chunk_xs : List Int
  world_chunk_ys : List Int
  world_chunk_zs : List Int
  chunk_cache : ChunkCache
  generator : DeterministicMap
  chunk_cache_queue : List ChunkPosition
  chunk_cache_queued : ChunkPosition → Bool
  skip_chunk_cache_processing : Bool

/-- The priority enumeration for a view level: level-1, level, then the
offsets -PRELOAD_Z_RADIUS-1..=PRELOAD_Z_RADIUS skipping -1 and 0, with i32
saturating arithmetic. -/
def prioritized_levels (base : Int) : List Int :=
  [i32_saturating_add base (-1), base]
    ++ (List.range 12).filterMap (fun i =>
        if (i : Int) - 6 = -1 ∨ (i : Int) - 6 = 0 then none
        else some (i32_saturating_add base ((i : Int) - 6)))

/-- The deduplicated chunk-z priority order: the floor-divided levels that
exist in the world, in first-occurrence order, followed by every remaining
world chunk z. -/
def ordered_chunk_zs (st : SchedulerState) (levels : List Int) : List Int :=
  let first := levels.foldl (fun acc level =>
    if div_floor level 4 ∈ st.world_chunk_zs then
      if div_floor level 4 ∈ acc then acc else acc ++ [div_floor level 4]
    else acc) []
  first ++ st.world_chunk_zs.filter (fun z => decide (z ∉ first))

/-- queue_chunk_cache_position: skip if already cached or already queued,
else insert into the membership set and push to the back of the queue. -/
def queue_chunk_cache_position (st : SchedulerState) (position : ChunkPosition) :
    SchedulerState :=
  if st.chunk_cache.has_chunk position = true ∨ st.chunk_cache_queued position = true
  then st
  else
    { st with
      chunk_cache_queued := fun p => if p = position then true else st.chunk_cache_queued p
      chunk_cache_queue := st.chunk_cache_queue ++ [position] }

/-- queue_full_chunk_plane: queue every (x, y) of the world grid at one
chunk z, ys outer, xs inner. -/
def queue_full_chunk_plane (st : SchedulerState) (chunk_z : Int) : SchedulerState :=
  st.world_chunk_ys.foldl (fun st2 chunk_y =>
    st.world_chunk_xs.foldl (fun st3 chunk_x =>
      queue_chunk_cache_position st3 ⟨chunk_x, chunk_y, chunk_z⟩) st2) st

/-- rebuild_chunk_cache_queue_from_world_levels: clear the queue and the
membership set, then queue the full plane of every prioritized chunk z. -/
def rebuild_chunk_cache_queue (st : SchedulerState) (levels : List Int) :
    SchedulerState :=
  (ordered_chunk_zs st levels).foldl queue_full_chunk_plane
    { st with chunk_cache_queue := [], chunk_cache_queued := fun _ => false }

/-- reprioritize_chunk_cache_for_view: rebuild for the new priority levels,
then set the one-shot skip flag. -/
def reprioritize_chunk_cache_for_view (st : SchedulerState) (base_world_z : Int) :
    SchedulerState :=
  { rebuild_chunk_cache_queue st (prioritized_levels base_world_z) with
    skip_chunk_cache_processing := true }

/-- The drain loop of process_chunk_cache_queue: pop from the front, drop
the popped position from the membership set, skip already-cached positions,
generate up to CHUNK_CACHE_CHUNKS_PER_FRAME chunks. -/
def drain_loop (generator : DeterministicMap) :
    List ChunkPosition → (ChunkPosition → Bool) → ChunkCache → Nat →
      List ChunkPosition × (ChunkPosition → Bool) × ChunkCache
  | [], queued, cache, _ => ([], queued, cache)
  | position :: rest, queued, cache, processed =>
    if processed < CHUNK_CACHE_CHUNKS_PER_FRAME then
      if cache.has_chunk position = true then
        drain_loop generator rest
          (fun p => if p = position then false else queued p) cache processed
      else
        drain_loop generator rest
          (fun p => if p = position then false else queued p)
          (cache.populate_chunk_at generator position) (processed + 1)
    else (position :: rest, queued, cache)

/-- process_chunk_cache_queue: consume the one-shot skip flag, or drain. -/
def process_chunk_cache_queue (st : SchedulerState) : SchedulerState :=
  if st.skip_chunk_cache_processing = true then
    { st with skip_chunk_cache_processing := false }
  else
    { st with
      chunk_cache_queue :=
        (drain_loop st.generator st.chunk_cache_queue st.chunk_cache_queued
          st.chunk_cache 0).1
      chunk_cache_queued :=
        (drain_loop st.generator st.chunk_cache_queue st.chunk_cache_queued
          st.chunk_cache 0).2.1
      chunk_cache :=
        (drain_loop st.generator st.chunk_cache_queue st.chunk_cache_queued
          st.chunk_cache 0).2.2 }

/-- One pure queue step: what queue_chunk_cache_position does to the queue
when the membership set agrees with queue membership. -/
def enqueue_step (cache : ChunkCache) (q : List ChunkPosition)
    (position : ChunkPosition) : List ChunkPosition :=
  if cache.has_chunk position = true ∨ position ∈ q then q else q ++ [position]

theorem queue_position_eq (st : SchedulerState) (position : ChunkPosition)
    (hinv : ∀ p, st.chunk_cache_queued p = decide (p ∈ st.chunk_cache_queue)) :
    queue_chunk_cache_position st position
      = { st with
          chunk_cache_queue := enqueue_step st.chunk_cache st.chunk_cache_queue position
          chunk_cache_queued := fun p =>
            decide (p ∈ enqueue_step st.chunk_cache st.chunk_cache_queue position) } := by
  unfold queue_chunk_cache_position enqueue_step
  have hcond : (st.chunk_cache.has_chunk position = true
      ∨ st.chunk_cache_queued position = true)
      ↔ (st.chunk_cache.has_chunk position = true
        ∨ position ∈ st.chunk_cache_queue) := by
    rw [hinv position]
    simp
  by_cases h1 : st.chunk_cache.has_chunk position = true
      ∨ position ∈ st.chunk_cache_queue
  · rw [if_pos (hcond.mpr h1), if_pos h1]
    have hq : (fun p => decide (p ∈ st.chunk_cache_queue)) = st.chunk_cache_queued :=
      funext fun p => (hinv p).symm
    rw [hq]
  · rw [if_neg (fun hc => h1 (hcond.mp hc)), if_neg h1]
    congr 1
    funext p
    by_cases hp : p = position
    · subst hp
      simp
    · simp only [if_neg hp, hinv p]
      simp [List.mem_append, hp]

theorem foldl_flatMap_eq {α β γ : Type} (g : α → List β) (f : γ → β → γ)
    (l : List α) (init : γ) :
    (l.flatMap g).foldl f init
      = l.foldl (fun acc a => (g a).foldl f acc) init := by
  induction l generalizing init with
  | nil => rfl
  | cons a t ih => simp [List.flatMap_cons, List.foldl_append, ih]

theorem fold_queue_positions (l : List ChunkPosition) :
    ∀ st : SchedulerState,
      (∀ p, st.chunk_cache_queued p = decide (p ∈ st.chunk_cache_queue)) →
      l.foldl queue_chunk_cache_position st
        = { st with
            chunk_cache_queue := l.foldl (enqueue_step st.chunk_cache) st.chunk_cache_queue
            chunk_cache_queued := fun p =>
              decide (p ∈ l.foldl (enqueue_step st.chunk_cache) st.chunk_cache_queue) } := by
  induction l with
  | nil =>
    intro st hinv
    simp only [List.foldl_nil]
    have hq : (fun p => decide (p ∈ st.chunk_cache_queue)) = st.chunk_cache_queued :=
      funext fun p => (hinv p).symm
    rw [hq]
  | cons a t ih =>
    intro st hinv
    simp only [List.foldl_cons]
    rw [queue_position_eq st a hinv]
    rw [ih _ (fun p => rfl)]

/-- The plane of world grid positions at one chunk z, ys outer, xs inner. -/
def plane_positions (xs ys : List Int) (chunk_z : Int) : List ChunkPosition :=
  ys.flatMap (fun chunk_y => xs.map (fun chunk_x => ⟨chunk_x, chunk_y, chunk_z⟩))

theorem plane_eq (st : SchedulerState) (chunk_z : Int) :
    queue_full_chunk_plane st chunk_z
      = (plane_positions st.world_chunk_xs st.world_chunk_ys chunk_z).foldl
          queue_chunk_cache_position st := by
  unfold queue_full_chunk_plane plane_positions
  rw [foldl_flatMap_eq]
  simp [List.foldl_map]

theorem fold_planes_spec (zs : List Int) :
    ∀ st : SchedulerState,
      (∀ p, st.chunk_cache_queued p = decide (p ∈ st.chunk_cache_queue)) →
      zs.foldl queue_full_chunk_plane st
        = { st with
            chunk_cache_queue :=
              (zs.flatMap (plane_positions st.world_chunk_xs st.world_chunk_ys)).foldl
                (enqueue_step st.chunk_cache) st.chunk_cache_queue
            chunk_cache_queued := fun p =>
              decide (p ∈ (zs.flatMap (plane_positions st.world_chunk_xs
                st.world_chunk_ys)).foldl (enqueue_step st.chunk_cache)
                st.chunk_cache_queue) } := by
  induction zs with
  | nil =>
    intro st hinv
    simp only [List.foldl_nil, List.flatMap_nil]
    have hq : (fun p => decide (p ∈ st.chunk_cache_queue)) = st.chunk_cache_queued :=
      funext fun p => (hinv p).symm
    rw [hq]
  | cons z t ih =>
    intro st hinv
    simp only [List.foldl_cons]
    rw [plane_eq, fold_queue_positions _ st hinv]
    rw [ih _ (fun p => rfl)]
    simp only [List.flatMap_cons, List.foldl_append]

/-- Pure recomputation of the rebuilt queue: fold the enqueue step over all
candidate plane positions in priority order, starting from empty. -/
def rebuilt_queue (st : SchedulerState) (levels : List Int) : List ChunkPosition :=
  ((ordered_chunk_zs st levels).flatMap
    (plane_positions st.world_chunk_xs st.world_chunk_ys)).foldl
    (enqueue_step st.chunk_cache) []

theorem rebuild_spec (st : SchedulerState) (levels : List Int) :
    rebuild_chunk_cache_queue st levels
      = { st with
          chunk_cache_queue := rebuilt_queue st levels
          chunk_cache_queued := fun p => decide (p ∈ rebuilt_queue st levels) } := by
  unfold rebuild_chunk_cache_queue rebuilt_queue
  rw [fold_planes_spec _ _ (fun p => rfl)]

theorem has_chunk_populate (cache : ChunkCache) (gen : DeterministicMap)
    (pos q : ChunkPosition) :
    (cache.populate_chunk_at gen pos).has_chunk q
      = if q = pos then true else cache.has_chunk q := by
  unfold ChunkCache.populate_chunk_at ChunkCache.has_chunk cache_insert
  by_cases h : q = pos <;> simp [h]

theorem drain_loop_fresh (gen : DeterministicMap) :
    ∀ (queue : List ChunkPosition) (queued : ChunkPosition → Bool)
      (cache : ChunkCache) (processed : Nat),
      queue.Nodup →
      (∀ p ∈ queue, cache.has_chunk p = false) →
      processed + queue.length ≤ CHUNK_CACHE_CHUNKS_PER_FRAME →
      drain_loop gen queue queued cache processed
        = ([], fun p => if p ∈ queue then false else queued p,
            queue.foldl (fun cc pos => cc.populate_chunk_at gen pos) cache) := by
  intro queue
  induction queue with
  | nil =>
    intro queued cache processed _ _ _
    simp only [drain_loop]
    refine Prod.ext rfl (Prod.ext ?_ rfl)
    funext p
    simp
  | cons pos rest ih =>
    intro queued cache processed hnd hfresh hlen
    have hposrest : pos ∉ rest := (List.nodup_cons.mp hnd).1
    have hlt : processed < CHUNK_CACHE_CHUNKS_PER_FRAME := by
      simp only [List.length_cons] at hlen
      omega
    simp only [drain_loop]
    rw [if_pos hlt, hfresh pos (List.mem_cons_self pos rest)]
    rw [if_neg (by simp)]
    rw [ih (fun p => if p = pos then false else queued p)
      (cache.populate_chunk_at gen pos) (processed + 1)
      (List.nodup_cons.mp hnd).2
      (by
        intro p hp
        rw [has_chunk_populate]
        rw [if_neg (by
          intro he
          exact hposrest (he ▸ hp))]
        exact hfresh p (List.mem_cons_of_mem pos hp))
      (by
        simp only [List.length_cons] at hlen
        omega)]
    refine Prod.ext rfl (Prod.ext ?_ ?_)
    · funext p
      by_cases hp1 : p ∈ rest
      · simp [hp1, List.mem_cons]
      · by_cases hp2 : p = pos
        · subst hp2
          simp [hp1]
        · simp [hp1, hp2, List.mem_cons]
    · simp only [List.foldl_cons]

/-- C9: re-prioritizing for a new view level rebuilds the queue and its
membership set from scratch — the result is identical whatever queue,
membership set and skip flag were there before — and sets the one-shot skip
flag; the immediately following drain only clears the flag, generating no
chunks and leaving the queue, the membership set and the cache untouched;
and a drain with the flag clear proceeds in queue order: it generates the
queued chunks front to back (up to the per-frame budget), empties the queue
and removes the drained entries from the membership set. -/
theorem C9_reprioritize_rebuild_and_skip :
    (∀ (st : SchedulerState) (base : Int) (q0 : List ChunkPosition)
      (qd0 : ChunkPosition → Bool) (sk0 : Bool),
      reprioritize_chunk_cache_for_view
        { st with
          chunk_cache_queue := q0
          chunk_cache_queued := qd0
          skip_chunk_cache_processing := sk0 } base
        = reprioritize_chunk_cache_for_view st base)
    ∧ (∀ (st : SchedulerState) (base : Int),
      (reprioritize_chunk_cache_for_view st base).skip_chunk_cache_processing
        = true)
    ∧ (∀ (st : SchedulerState) (base : Int),
      process_chunk_cache_queue (reprioritize_chunk_cache_for_view st base)
        = { reprioritize_chunk_cache_for_view st base with
            skip_chunk_cache_processing := false }
      ∧ (process_chunk_cache_queue
          (reprioritize_chunk_cache_for_view st base)).chunk_cache
        = st.chunk_cache)
    ∧ (∀ st : SchedulerState,
      st.skip_chunk_cache_processing = false →
      st.chunk_cache_queue.Nodup →
      (∀ p ∈ st.chunk_cache_queue, st.chunk_cache.has_chunk p = false) →
      st.chunk_cache_queue.length ≤ CHUNK_CACHE_CHUNKS_PER_FRAME →
      process_chunk_cache_queue st
        = { st with
            chunk_cache_queue := []
            chunk_cache_queued := fun p =>
              if p ∈ st.chunk_cache_queue then false else st.chunk_cache_queued p
            chunk_cache := st.chunk_cache_queue.foldl
              (fun cc pos => cc.populate_chunk_at st.generator pos)
              st.chunk_cache }) := by
  refine ⟨?_, ?_, ?_, ?_⟩
  · intro st base q0 qd0 sk0
    unfold reprioritize_chunk_cache_for_view
    rw [rebuild_spec, rebuild_spec]
    rfl
  · intro st base
    rfl
  · intro st base
    constructor
    · rfl
    · show (reprioritize_chunk_cache_for_view st base).chunk_cache = st.chunk_cache
      unfold reprioritize_chunk_cache_for_view
      rw [rebuild_spec]
  · intro st hskip hnd hfresh hlen
    unfold process_chunk_cache_queue
    rw [if_neg (by rw [hskip]; simp)]
    rw [drain_loop_fresh st.generator st.chunk_cache_queue st.chunk_cache_queued
      st.chunk_cache 0 hnd hfresh (by omega)]

/-! ## Witnesses: the claim theorems applied at concrete inputs -/

theorem C1_witness :
    (Chunk.new ⟨0, 0, 0⟩ AIR).blocks.length = CHUNK_BLOCKS
    ∧ (CachedChunk.from_chunk (Chunk.new ⟨0, 0, 0⟩ AIR)).get_block ⟨1, 2, 3⟩
        = (Chunk.new ⟨0, 0, 0⟩ AIR).get_block ⟨1, 2, 3⟩ :=
  ⟨by simp [Chunk.new],
    C1_palette_compression_roundtrip (Chunk.new ⟨0, 0, 0⟩ AIR)
      (by simp [Chunk.new]) ⟨1, 2, 3⟩⟩

theorem C2_witness :
    DeterministicMap.block_at ⟨fun _ => false⟩ ⟨2000, 0, 0⟩ = AIR
    ∧ DeterministicMap.block_at ⟨fun _ => false⟩ ⟨0, 0, -66⟩ = BEDROCK :=
  ⟨C2_out_of_bounds_is_air.1 ⟨fun _ => false⟩ ⟨2000, 0, 0⟩ (by decide) (by decide),
    C2_out_of_bounds_is_air.2 ⟨fun _ => false⟩ 0 0 (by decide) (by decide)
      (by decide) (by decide)⟩

theorem C3_witness :
    Chunk.block_index (⟨13, 0, 0⟩ : LocalBlockCoord) = .ok 13
    ∧ (DeterministicMap.chunk_for_position ⟨fun _ => false⟩ ⟨0, 0, 0⟩).get_block
          ⟨13, 0, 0⟩
        = .ok (DeterministicMap.block_at ⟨fun _ => false⟩
            ⟨(⟨0, 0, 0⟩ : ChunkPosition).x * 32
                + ((⟨13, 0, 0⟩ : LocalBlockCoord).x : Int),
              (⟨0, 0, 0⟩ : ChunkPosition).y * 32
                + ((⟨13, 0, 0⟩ : LocalBlockCoord).y : Int),
              (⟨0, 0, 0⟩ : ChunkPosition).z * 4
                + ((⟨13, 0, 0⟩ : LocalBlockCoord).z : Int)⟩) :=
  ⟨rfl,
    C3_chunk_generation_matches_block_at.2 ⟨fun _ => false⟩ ⟨0, 0, 0⟩ ⟨13, 0, 0⟩ 13
      rfl⟩

theorem C4_witness : bits_required 2 = Nat.log 2 (2 - 1) + 1 :=
  C4_bits_per_index.1 2 (by decide)

theorem C5_witness :
    ChunkCache.new.chunks (chunk_and_local_for_world_coord ⟨0, 0, 0⟩).1 = none
    ∧ ChunkCache.new.set_block ⟨0, 0, 0⟩ STONE
        = (ChunkCache.new, .error ChunkError.OutOfBounds) :=
  ⟨rfl, C5_set_block_absent_chunk_fails ChunkCache.new ⟨0, 0, 0⟩ STONE rfl⟩

/-- A one-entry cache for the C6 witness: every position answers the same
compressed all-AIR chunk. -/
def witness_cache6 : ChunkCache :=
  { chunks := fun _ =>
      some (CachedChunk.from_chunk_with_changed (Chunk.new ⟨0, 0, 0⟩ AIR) false)
    reusable_chunk := Chunk.new ⟨0, 0, 0⟩ AIR
    last_save_ms := none }

theorem C6_witness :
    (Chunk.new ⟨0, 0, 0⟩ AIR).blocks.length = CHUNK_BLOCKS
    ∧ witness_cache6.chunks (chunk_and_local_for_world_coord ⟨5, 6, 1⟩).1
        = some (CachedChunk.from_chunk_with_changed (Chunk.new ⟨0, 0, 0⟩ AIR) false)
    ∧ ((witness_cache6.set_block ⟨5, 6, 1⟩ STONE).2 = .ok ()
      ∧ (witness_cache6.set_block ⟨5, 6, 1⟩ STONE).1.block_at_world ⟨5, 6, 1⟩
          = some STONE
      ∧ (∀ coord2 : WorldCoord, coord2 ≠ ⟨5, 6, 1⟩ →
          (witness_cache6.set_block ⟨5, 6, 1⟩ STONE).1.block_at_world coord2
            = witness_cache6.block_at_world coord2)
      ∧ (∃ updated : CachedChunk,
          (witness_cache6.set_block ⟨5, 6, 1⟩ STONE).1.chunks
              (chunk_and_local_for_world_coord ⟨5, 6, 1⟩).1 = some updated
            ∧ updated.changed = true)
      ∧ (∀ p : ChunkPosition, p ≠ (chunk_and_local_for_world_coord ⟨5, 6, 1⟩).1 →
          (witness_cache6.set_block ⟨5, 6, 1⟩ STONE).1.chunks p
            = witness_cache6.chunks p)) :=
  ⟨by simp [Chunk.new], rfl,
    C6_set_block_updates_one_voxel witness_cache6 ⟨5, 6, 1⟩ STONE
      (Chunk.new ⟨0, 0, 0⟩ AIR) false (by simp [Chunk.new]) rfl⟩

theorem C7_witness : div_floor (-1) 4 = Int.fdiv (-1) 4 :=
  C7_floor_decomposition.1 (-1) 4 (by decide)

theorem C8_witness : ChunkCache.new.first_solid_on_line ⟨-1, -1, 0⟩ ⟨3, 2, 0⟩ = none :=
  C8_line_query.2.2.1 ChunkCache.new (fun _ => rfl)

/-- A minimal scheduler state for the C9 witness. -/
def witness_sched : SchedulerState :=
  { world_chunk_xs := [0]
    world_chunk_ys := [0]
    world_chunk_zs := [0]
    chunk_cache := ChunkCache.new
    generator := ⟨fun _ => false⟩
    chunk_cache_queue := []
    chunk_cache_queued := fun _ => false
    skip_chunk_cache_processing := false }

theorem C9_witness :
    witness_sched.skip_chunk_cache_processing = false
    ∧ witness_sched.chunk_cache_queue.Nodup
    ∧ (∀ p ∈ witness_sched.chunk_cache_queue,
        witness_sched.chunk_cache.has_chunk p = false)
    ∧ witness_sched.chunk_cache_queue.length ≤ CHUNK_CACHE_CHUNKS_PER_FRAME
    ∧ process_chunk_cache_queue witness_sched
        = { witness_sched with
            chunk_cache_queue := []
            chunk_cache_queued := fun p =>
              if p ∈ witness_sched.chunk_cache_queue then false
              else witness_sched.chunk_cache_queued p
            chunk_cache := witness_sched.chunk_cache_queue.foldl
              (fun cc pos => cc.populate_chunk_at witness_sched.generator pos)
              witness_sched.chunk_cache } :=
  ⟨rfl, List.nodup_nil, fun p hp => absurd hp (List.not_mem_nil p), by decide,
    C9_reprioritize_rebuild_and_skip.2.2.2 witness_sched rfl List.nodup_nil
      (fun p hp => absurd hp (List.not_mem_nil p)) (by decide)⟩

theorem C10_witness :
    ChunkCache.new.reusable_chunk.blocks.length = CHUNK_BLOCKS
    ∧ ((ChunkCache.new.populate_chunk_at ⟨fun _ => false⟩ ⟨0, 0, 0⟩).chunks ⟨0, 0, 0⟩
        = some (CachedChunk.from_chunk (DeterministicMap.populate_chunk
            ⟨fun _ => false⟩ ChunkCache.new.reusable_chunk ⟨0, 0, 0⟩))
      ∧ (CachedChunk.from_chunk (DeterministicMap.populate_chunk ⟨fun _ => false⟩
          ChunkCache.new.reusable_chunk ⟨0, 0, 0⟩)).changed = false
      ∧ (∀ (coord : LocalBlockCoord) (idx : Nat),
          Chunk.block_index coord = .ok idx →
          (CachedChunk.from_chunk (DeterministicMap.populate_chunk ⟨fun _ => false⟩
              ChunkCache.new.reusable_chunk ⟨0, 0, 0⟩)).get_block coord
            = .ok (DeterministicMap.block_at ⟨fun _ => false⟩
                ⟨(⟨0, 0, 0⟩ : ChunkPosition).x * 32 + (coord.x : Int),
                  (⟨0, 0, 0⟩ : ChunkPosition).y * 32 + (coord.y : Int),
                  (⟨0, 0, 0⟩ : ChunkPosition).z * 4 + (coord.z : Int)⟩))
      ∧ (∀ p : ChunkPosition, p ≠ ⟨0, 0, 0⟩ →
          (ChunkCache.new.populate_chunk_at ⟨fun _ => false⟩ ⟨0, 0, 0⟩).chunks p
            = ChunkCache.new.chunks p)) :=
  ⟨by simp [ChunkCache.new, Chunk.new],
    C10_populate_chunk_at_overwrites ChunkCache.new ⟨fun _ => false⟩ ⟨0, 0, 0⟩
      (by simp [ChunkCache.new, Chunk.new])⟩
